import Mathlib

/-!
# Fiat-Shamir transcript (`fiat-shamir/transcript.go`)

A shallow embedding of the `Transcript` type of package `fiatshamir` and of its
three operations `NewTranscript`, `Bind` and `ComputeChallenge`, followed by
theorems about them.

Modelling conventions.

* A Go `string` and a Go `[]byte` are both finite byte sequences; the conversion
  `[]byte(challengeID)` keeps the bytes.  Both are `Bytes` here and a `nil` slice
  is the empty list.
* `hash.Hash` is an interface over a mutable object.  It is a record of three
  state-passing functions over an arbitrary state type `σ`; `Write` also returns
  the error of the Go method (`none` for `nil`).
* `map[string]challenge` is an association list with at most one entry per key.
  Reading a key gives the `(value, ok)` pair of Go as an `Option`; assignment
  replaces the entry of an existing key in place and adds a new key at the end.
* `previous *challenge` points to the local copy made by `ComputeChallenge`,
  which nothing else can reach: it is an `Option challenge`.
* A method with a pointer receiver returns the new transcript next to its
  results.  The deferred `t.h.Reset()` of `ComputeChallenge` runs on every return
  path that follows the `defer` statement.
-/

namespace fiatshamir

/-- Byte strings: the content of a Go `[]byte` or of a Go `string`. -/
abbrev Bytes := List UInt8

/-- Values of the Go `error` interface that the package can return: its three
package-level errors, and whatever error the hash's `Write` gives back. -/
inductive Error where
  | errChallengeNotFound
  | errChallengeAlreadyComputed
  | errPreviousChallengeNotComputed
  | hashError (code : Nat)
  deriving DecidableEq, Repr

/-- The methods of `hash.Hash` that the transcript calls, over the state `σ` of the
hash object.  `Sum` stands for the call `Sum(nil)`. -/
structure Hash (σ : Type) where
  Reset : σ → σ
  Write : σ → Bytes → σ × Option Error
  Sum : σ → Bytes × σ

/-- The Go struct `challenge`. -/
structure challenge where
  position : Int
  bindings : List Bytes
  value : Bytes
  isComputed : Bool
  deriving DecidableEq, Repr

/-- Read `m[k]` of a Go map: the entry and whether it is present. -/
def mapGet : List (Bytes × challenge) → Bytes → Option challenge
  | [], _ => none
  | (k', c) :: m, k => if k' = k then some c else mapGet m k

/-- Assignment `m[k] = c` of a Go map. -/
def mapSet : List (Bytes × challenge) → Bytes → challenge → List (Bytes × challenge)
  | [], k, c => [(k, c)]
  | (k', c') :: m, k, c => if k' = k then (k, c) :: m else (k', c') :: mapSet m k c

/-- The Go struct `Transcript`; `h` is the state of the hash object. -/
structure Transcript (σ : Type) where
  h : σ
  challenges : List (Bytes × challenge)
  previous : Option challenge
  deriving DecidableEq, Repr

/-- The loop `for i := 0; i < n; i++ { t.challenges[challengesID[i]] = challenge{position: i} }`,
started at index `i` on the names that remain. -/
def NewTranscript.loop : List Bytes → Nat → List (Bytes × challenge) → List (Bytes × challenge)
  | [], _, m => m
  | id :: ids, i, m =>
    NewTranscript.loop ids (i + 1)
      (mapSet m id { position := (i : Int), bindings := [], value := [], isComputed := false })

/-- Model of `NewTranscript(h, challengesID...)`. -/
def NewTranscript {σ : Type} (h : σ) (challengesID : List Bytes) : Transcript σ :=
  { h := h, challenges := NewTranscript.loop challengesID 0 [], previous := none }

/-- Model of `(*Transcript).Bind`: the transcript after the call and the returned error. -/
def Bind {σ : Type} (t : Transcript σ) (challengeID : Bytes) (bValue : Bytes) :
    Transcript σ × Option Error :=
  match mapGet t.challenges challengeID with
  | none => (t, some Error.errChallengeNotFound)
  | some challenge =>
    if challenge.isComputed then (t, some Error.errChallengeAlreadyComputed)
    else
      ({ t with challenges := mapSet t.challenges challengeID
                  { challenge with bindings := challenge.bindings ++ [bValue] } }, none)

/-- The loop `for _, b := range challenge.bindings { h.Write(b) }`, which stops at the
first error. -/
def writeBindings {σ : Type} (H : Hash σ) : σ → List Bytes → σ × Option Error
  | s, [] => (s, none)
  | s, b :: bs =>
    match H.Write s b with
    | (s', some err) => (s', some err)
    | (s', none) => writeBindings H s' bs

/-- Model of `(*Transcript).ComputeChallenge`: the transcript after the call and the
returned `([]byte, error)` pair, `Except.error err` standing for `(nil, err)`. -/
def ComputeChallenge {σ : Type} (H : Hash σ) (t : Transcript σ) (challengeID : Bytes) :
    Transcript σ × Except Error Bytes :=
  match mapGet t.challenges challengeID with
  | none => (t, Except.error Error.errChallengeNotFound)
  | some challenge =>
    if challenge.isComputed then (t, Except.ok challenge.value)
    else
      match H.Write (H.Reset t.h) challengeID with
      | (s1, some err) => ({ t with h := H.Reset s1 }, Except.error err)
      | (s1, none) =>
        if challenge.position ≠ 0 then
          match t.previous with
          | none => ({ t with h := H.Reset s1 }, Except.error Error.errPreviousChallengeNotComputed)
          | some prev =>
            if prev.position ≠ challenge.position - 1 then
              ({ t with h := H.Reset s1 }, Except.error Error.errPreviousChallengeNotComputed)
            else
              match H.Write s1 prev.value with
              | (s2, some err) => ({ t with h := H.Reset s2 }, Except.error err)
              | (s2, none) =>
                match writeBindings H s2 challenge.bindings with
                | (s3, some err) => ({ t with h := H.Reset s3 }, Except.error err)
                | (s3, none) =>
                  let res := H.Sum s3
                  ({ t with h := H.Reset res.2,
                            previous := some { challenge with value := res.1, isComputed := true } },
                    Except.ok res.1)
        else
          match writeBindings H s1 challenge.bindings with
          | (s3, some err) => ({ t with h := H.Reset s3 }, Except.error err)
          | (s3, none) =>
            let res := H.Sum s3
            ({ t with h := H.Reset res.2,
                      previous := some { challenge with value := res.1, isComputed := true } },
              Except.ok res.1)

/-- A hash whose `Write` never fails and appends to the absorbed bytes, whose `Reset`
empties them and whose `Sum` returns `D` of the absorbed bytes and leaves them in place. -/
def appendHash (D : Bytes → Bytes) : Hash Bytes where
  Reset := fun _ => []
  Write := fun s b => (s ++ b, none)
  Sum := fun s => (D s, s)

/-- A call-counting hash: the hash `H` with a counter that every `Reset`, `Write` and
`Sum` increments. -/
def countingHash {σ : Type} (H : Hash σ) : Hash (σ × Nat) where
  Reset := fun s => (H.Reset s.1, s.2 + 1)
  Write := fun s b => (((H.Write s.1 b).1, s.2 + 1), (H.Write s.1 b).2)
  Sum := fun s => ((H.Sum s.1).1, ((H.Sum s.1).2, s.2 + 1))

/-- A call on a transcript. -/
inductive Call where
  | bind (challengeID : Bytes) (bValue : Bytes)
  | compute (challengeID : Bytes)
  deriving DecidableEq, Repr

/-- What a call returned. -/
inductive Outcome where
  | bound (err : Option Error)
  | computed (res : Except Error Bytes)

/-- One call on a transcript: the transcript after it and what it returned. -/
def step {σ : Type} (H : Hash σ) (t : Transcript σ) : Call → Transcript σ × Outcome
  | Call.bind challengeID bValue => ((Bind t challengeID bValue).1, Outcome.bound (Bind t challengeID bValue).2)
  | Call.compute challengeID =>
    ((ComputeChallenge H t challengeID).1, Outcome.computed (ComputeChallenge H t challengeID).2)

/-- A sequence of calls, one after the other: the final transcript and the outcomes in
call order. -/
def run {σ : Type} (H : Hash σ) : Transcript σ → List Call → Transcript σ × List Outcome
  | t, [] => (t, [])
  | t, c :: cs => ((run H (step H t c).1 cs).1, (step H t c).2 :: (run H (step H t c).1 cs).2)

/-- The name `"c0"`. -/
def nameC0 : Bytes := [0x63, 0x30]

/-- The name `"c1"`. -/
def nameC1 : Bytes := [0x63, 0x31]

/-- The name `"zzz"`. -/
def nameZ : Bytes := [0x7a, 0x7a, 0x7a]

/-- Calls on the transcript of `"c0", "c1"` that bind to both names and compute them in
declaration order. -/
def sampleCalls : List Call :=
  [Call.bind nameC1 [1], Call.bind nameC0 [2], Call.compute nameC0, Call.bind nameC1 [3],
    Call.compute nameC1]

/-- A hash whose `Write` fails on every call with the same error. -/
def failingHash : Hash Unit where
  Reset := fun _ => ()
  Write := fun _ _ => ((), some (Error.hashError 1))
  Sum := fun _ => ([], ())

/-- The name whose digest a call returned, when the call is a `ComputeChallenge` that
succeeded. -/
def computedName : Call → Outcome → Option Bytes
  | Call.compute challengeID, Outcome.computed (Except.ok _) => some challengeID
  | _, _ => none

/-- The name of the most recent successful `ComputeChallenge` among calls paired with
their outcomes, and `acc` when there is none. -/
def lastComputedFrom : Option Bytes → List Call → List Outcome → Option Bytes
  | acc, c :: cs, o :: os =>
    match computedName c o with
    | some challengeID => lastComputedFrom (some challengeID) cs os
    | none => lastComputedFrom acc cs os
  | acc, _, _ => acc

/-- A sequence of calls in which the challenges are computed in declaration order and
every `Bind` names a challenge that is declared and not computed yet.  `pending` are the
names still to compute, in declaration order. -/
def wellOrdered : List Bytes → List Call → Bool
  | _, [] => true
  | pending, Call.bind challengeID _ :: cs =>
    decide (challengeID ∈ pending) && wellOrdered pending cs
  | [], Call.compute _ :: _ => false
  | n :: pending, Call.compute challengeID :: cs =>
    decide (challengeID = n) && wellOrdered pending cs

/-- The values that the calls bind to the name `c`, in call order. -/
def boundValues (c : Bytes) : List Call → List Bytes
  | [] => []
  | Call.bind challengeID bValue :: cs =>
    if challengeID = c then bValue :: boundValues c cs else boundValues c cs
  | Call.compute _ :: cs => boundValues c cs

/-- The digests of the doc comment of `ComputeChallenge`, for the digest function `D`, the
names `names` and the values `B n` bound to each name `n`:
`d_0 = D(n_0 ++ concat(B n_0))` and `d_(k+1) = D(n_(k+1) ++ d_k ++ concat(B n_(k+1)))`. -/
def chainDigest (D : Bytes → Bytes) (names : List Bytes) (B : Bytes → List Bytes) : Nat → Bytes
  | 0 => D (names.getD 0 [] ++ (B (names.getD 0 [])).flatten)
  | k + 1 =>
    D (names.getD (k + 1) [] ++ chainDigest D names B k ++ (B (names.getD (k + 1) [])).flatten)

/-- The outcomes that the chained digest formula predicts for a sequence of calls of which
`j` challenges are computed already: every `Bind` returns `nil`, and the successive calls of
`ComputeChallenge` return `d_j`, `d_(j+1)`, ... -/
def expectedOutcomes (D : Bytes → Bytes) (names : List Bytes) (B : Bytes → List Bytes) :
    List Call → Nat → List Outcome
  | [], _ => []
  | Call.bind _ _ :: cs, j => Outcome.bound none :: expectedOutcomes D names B cs j
  | Call.compute _ :: cs, j =>
    Outcome.computed (Except.ok (chainDigest D names B j))
      :: expectedOutcomes D names B cs (j + 1)


/-- Every registry entry is unmarked and stands at an index of `names` that holds its
name. -/
def registryOK (names : List Bytes) (m : List (Bytes × challenge)) : Prop :=
  ∀ (c : Bytes) (ch : challenge), mapGet m c = some ch →
    ch.isComputed = false ∧ ∃ p : Nat, ch.position = (p : Int) ∧ names[p]? = some c

/-- The `previous` back-reference, when set, has the position of the name `acc` computed
last. -/
def previousOK (names : List Bytes) (prev : Option challenge) (acc : Option Bytes) : Prop :=
  ∀ p : challenge, prev = some p →
    ∃ (q : Nat) (c : Bytes), p.position = (q : Int) ∧ names[q]? = some c ∧ acc = some c

/-- Every registry entry is unmarked, has no value, and its name and position satisfy
`P`. -/
def entriesOK (P : Bytes → Int → Prop) (m : List (Bytes × challenge)) : Prop :=
  ∀ (c : Bytes) (ch : challenge), mapGet m c = some ch →
    ch.isComputed = false ∧ ch.value = [] ∧ P c ch.position

/-- The position `p` is the index of the last occurrence of the name `c` in `names`. -/
def lastIndex (names : List Bytes) (c : Bytes) (p : Int) : Prop :=
  ∃ q : Nat, p = (q : Int) ∧ names[q]? = some c ∧ ∀ r : Nat, q < r → names[r]? ≠ some c

/-- The name `"c0"` declared twice around `"c1"`. -/
def repeatedNames : List Bytes := [nameC0, nameC1, nameC0]

/-- The digests that the successful calls of `ComputeChallenge` returned, in call order. -/
def computedDigests : List Outcome → List Bytes
  | [] => []
  | Outcome.computed (Except.ok d) :: os => d :: computedDigests os
  | Outcome.computed (Except.error _) :: os => computedDigests os
  | Outcome.bound _ :: os => computedDigests os

/-- The number of calls of `ComputeChallenge` among the calls. -/
def computeCount : List Call → Nat
  | [] => 0
  | Call.compute _ :: cs => computeCount cs + 1
  | Call.bind _ _ :: cs => computeCount cs

/-- Calls on `"c0", "c1"` that bind `[1]` and then `[2]` to `"c0"`. -/
def splitCalls : List Call :=
  [Call.bind nameC0 [1], Call.bind nameC0 [2], Call.compute nameC0, Call.compute nameC1]

/-- Calls on `"c0", "c1"` that bind `[1, 2]` to `"c0"` in one call. -/
def joinedCalls : List Call :=
  [Call.bind nameC0 [1, 2], Call.compute nameC0, Call.compute nameC1]

/-- Calls on `"c0", "c1"` that bind `[1]` to `"c0"`. -/
def shortCalls : List Call :=
  [Call.bind nameC0 [1], Call.compute nameC0, Call.compute nameC1]

/-- A call of a method of the hash, as a logging hash records it; a `Write` is recorded
with its argument and the error it returned. -/
inductive HashCall where
  | reset
  | write (b : Bytes) (err : Option Error)
  | sum
  deriving DecidableEq, Repr

/-- A logging hash: the hash `H` with the list of the calls made so far, oldest first. -/
def loggingHash {σ : Type} (H : Hash σ) : Hash (σ × List HashCall) where
  Reset := fun s => (H.Reset s.1, s.2 ++ [HashCall.reset])
  Write := fun s b =>
    (((H.Write s.1 b).1, s.2 ++ [HashCall.write b (H.Write s.1 b).2]), (H.Write s.1 b).2)
  Sum := fun s => ((H.Sum s.1).1, ((H.Sum s.1).2, s.2 ++ [HashCall.sum]))

/-- No recorded `Write` has failed. -/
def noFailedWrite (L : List HashCall) : Prop :=
  ∀ (b : Bytes) (e : Error), HashCall.write b (some e) ∉ L

/-- A hash whose first `Write` after a `Reset` succeeds and whose later ones fail; its
state is the number of calls of `Write` since the last `Reset`. -/
def failSecondWrite : Hash Nat where
  Reset := fun _ => 0
  Write := fun n _ => (n + 1, if n = 0 then none else some (Error.hashError 2))
  Sum := fun n => ([], n)

/-- Two challenges that differ at most in where their bindings are cut: same position,
same concatenation of the bindings, same value, same mark. -/
def sameUpToCuts (a b : challenge) : Prop :=
  a.position = b.position ∧ a.bindings.flatten = b.bindings.flatten ∧ a.value = b.value ∧
    a.isComputed = b.isComputed

/-- Two optional challenges that are both absent, or both present and the same up to the
cuts of their bindings. -/
def optSameUpToCuts : Option challenge → Option challenge → Prop
  | none, none => True
  | some a, some b => sameUpToCuts a b
  | _, _ => False

/-- Two transcripts whose registries and `previous` are the same up to the cuts of the
bindings. -/
def transcriptsSameUpToCuts {σ : Type} (t u : Transcript σ) : Prop :=
  optSameUpToCuts t.previous u.previous ∧
    ∀ c : Bytes, optSameUpToCuts (mapGet t.challenges c) (mapGet u.challenges c)

/-- Calls on `"c0", "c1"` that bind `[1]` to `"c0"` after `"c0"` is computed. -/
def lateCallsOne : List Call :=
  [Call.compute nameC0, Call.bind nameC0 [1], Call.compute nameC1]

/-- Calls on `"c0", "c1"` that bind `[2]` to `"c0"` after `"c0"` is computed. -/
def lateCallsTwo : List Call :=
  [Call.compute nameC0, Call.bind nameC0 [2], Call.compute nameC1]

/-- A hash with a budget of calls of `Write` that `Reset` does not refill.  Its state is the
bytes absorbed since the last `Reset` and the budget that is left; `Write` appends and uses
one unit of the budget, and fails once the budget is used up; `Sum` returns the bytes
absorbed since the last `Reset`. -/
def budgetHash : Hash (Bytes × Nat) where
  Reset := fun s => ([], s.2)
  Write := fun s b =>
    if s.2 = 0 then (s, some (Error.hashError 9)) else ((s.1 ++ b, s.2 - 1), none)
  Sum := fun s => (s.1, s)

/-! ## The association list -/

theorem mapGet_mapSet (m : List (Bytes × challenge)) (k k' : Bytes) (c : challenge) :
    mapGet (mapSet m k c) k' = if k = k' then some c else mapGet m k' := by
  induction m with
  | nil => simp [mapSet, mapGet]
  | cons e m ih =>
    obtain ⟨k0, c0⟩ := e
    by_cases h : k0 = k
    · subst h
      by_cases h' : k0 = k' <;> simp [mapSet, mapGet, h']
    · by_cases h' : k = k'
      · subst h'
        simp [mapSet, mapGet, h, ih]
      · simp [mapSet, mapGet, h, ih, h']

theorem mapSet_keys (m : List (Bytes × challenge)) (k : Bytes) (c c' : challenge)
    (h : mapGet m k = some c') : (mapSet m k c).map Prod.fst = m.map Prod.fst := by
  induction m with
  | nil => simp [mapGet] at h
  | cons e m ih =>
    obtain ⟨k0, c0⟩ := e
    by_cases hk : k0 = k
    · simp [mapSet, hk]
    · simp [mapGet, hk] at h
      simp [mapSet, hk, ih h]

/-! ## `Bind` and `ComputeChallenge`, case by case -/

theorem Bind_of_mapGet_none {σ : Type} (t : Transcript σ) (c x : Bytes)
    (h : mapGet t.challenges c = none) : Bind t c x = (t, some Error.errChallengeNotFound) := by
  simp [Bind, h]

theorem Bind_of_not_computed {σ : Type} (t : Transcript σ) (c x : Bytes) (ch : challenge)
    (h : mapGet t.challenges c = some ch) (hc : ch.isComputed = false) :
    Bind t c x =
      ({ t with
          challenges := mapSet t.challenges c { ch with bindings := ch.bindings ++ [x] } },
        none) := by
  simp [Bind, h, hc]

theorem Bind_error_state {σ : Type} (t : Transcript σ) (c x : Bytes) (e : Error)
    (h : (Bind t c x).2 = some e) : (Bind t c x).1 = t := by
  unfold Bind at h ⊢
  split
  · rfl
  · split
    · rfl
    · rename_i hget hcomp
      simp [hget, hcomp] at h

/-- The registry is never assigned to by `ComputeChallenge`. -/
theorem ComputeChallenge_challenges {σ : Type} (H : Hash σ) (t : Transcript σ) (c : Bytes) :
    (ComputeChallenge H t c).1.challenges = t.challenges := by
  unfold ComputeChallenge
  repeat' split
  all_goals rfl

theorem ComputeChallenge_error_previous {σ : Type} (H : Hash σ) (t : Transcript σ) (c : Bytes)
    (e : Error) (h : (ComputeChallenge H t c).2 = Except.error e) :
    (ComputeChallenge H t c).1.previous = t.previous := by
  unfold ComputeChallenge at h ⊢
  repeat' split
  all_goals first
    | rfl
    | (exfalso; revert h; simp [*])

theorem ComputeChallenge_of_mapGet_none {σ : Type} (H : Hash σ) (t : Transcript σ) (c : Bytes)
    (h : mapGet t.challenges c = none) :
    ComputeChallenge H t c = (t, Except.error Error.errChallengeNotFound) := by
  simp [ComputeChallenge, h]

/-- Binding a list of values to one challenge, one call after the other. -/
theorem run_binds {σ : Type} (H : Hash σ) (c : Bytes) (vs : List Bytes) :
    ∀ (t : Transcript σ) (ch : challenge), mapGet t.challenges c = some ch →
      ch.isComputed = false →
      (run H t (vs.map (Call.bind c))).2 = vs.map (fun _ => Outcome.bound none) ∧
      mapGet (run H t (vs.map (Call.bind c))).1.challenges c =
        some { ch with bindings := ch.bindings ++ vs } := by
  induction vs with
  | nil => intro t ch h _; simp [run, h]
  | cons v vs ih =>
    intro t ch h hc
    have hb := Bind_of_not_computed t c v ch h hc
    have hget : mapGet (Bind t c v).1.challenges c =
        some { ch with bindings := ch.bindings ++ [v] } := by
      rw [hb]; simp [mapGet_mapSet]
    obtain ⟨h1, h2⟩ := ih (Bind t c v).1 _ hget hc
    simp only [List.map_cons, run, step]
    refine ⟨?_, ?_⟩
    · rw [h1, hb]
    · rw [h2]; simp

/-! ## `NewTranscript` -/

/-- An entry read after the construction loop is one that was there before, or the fresh
entry of an index at which its name stands. -/
theorem loop_get (l : List Bytes) :
    ∀ (i : Nat) (m : List (Bytes × challenge)) (c : Bytes) (ch : challenge),
      mapGet (NewTranscript.loop l i m) c = some ch →
      mapGet m c = some ch ∨
        ∃ p : Nat, i ≤ p ∧ l[p - i]? = some c ∧
          ch = { position := (p : Int), bindings := [], value := [], isComputed := false } := by
  induction l with
  | nil => intro i m c ch h; exact Or.inl h
  | cons id ids ih =>
    intro i m c ch h
    rcases ih (i + 1) _ c ch h with h1 | ⟨p, hp, hget, hch⟩
    · rw [mapGet_mapSet] at h1
      by_cases hid : id = c
      · rw [if_pos hid] at h1
        refine Or.inr ⟨i, le_refl i, ?_, ?_⟩
        · simp [hid]
        · exact (Option.some.inj h1).symm
      · rw [if_neg hid] at h1
        exact Or.inl h1
    · refine Or.inr ⟨p, by omega, ?_, hch⟩
      have : p - i = (p - (i + 1)) + 1 := by omega
      rw [this, List.getElem?_cons_succ]
      exact hget

theorem loop_get_none_iff (l : List Bytes) :
    ∀ (i : Nat) (m : List (Bytes × challenge)) (c : Bytes),
      mapGet (NewTranscript.loop l i m) c = none ↔ c ∉ l ∧ mapGet m c = none := by
  induction l with
  | nil => intro i m c; simp [NewTranscript.loop]
  | cons id ids ih =>
    intro i m c
    simp only [NewTranscript.loop]
    rw [ih, mapGet_mapSet]
    by_cases hid : id = c
    · simp [hid]
    · simp [hid, Ne.symm hid]

theorem NewTranscript_get {σ : Type} (h0 : σ) (names : List Bytes) (c : Bytes) (ch : challenge)
    (h : mapGet (NewTranscript h0 names).challenges c = some ch) :
    ∃ p : Nat, names[p]? = some c ∧
      ch = { position := (p : Int), bindings := [], value := [], isComputed := false } := by
  rcases loop_get names 0 [] c ch h with h1 | ⟨p, _, hget, hch⟩
  · simp [mapGet] at h1
  · exact ⟨p, by simpa using hget, hch⟩

theorem NewTranscript_get_none_iff {σ : Type} (h0 : σ) (names : List Bytes) (c : Bytes) :
    mapGet (NewTranscript h0 names).challenges c = none ↔ c ∉ names := by
  show mapGet (NewTranscript.loop names 0 []) c = none ↔ c ∉ names
  rw [loop_get_none_iff]
  simp [mapGet]

/-! ## The appending hash -/

theorem writeBindings_appendHash (D : Bytes → Bytes) (bs : List Bytes) :
    ∀ s : Bytes, writeBindings (appendHash D) s bs = (s ++ bs.flatten, none) := by
  induction bs with
  | nil => intro s; simp [writeBindings]
  | cons b bs ih =>
    intro s
    have hw : (appendHash D).Write s b = (s ++ b, none) := rfl
    simp only [writeBindings, hw, ih, List.flatten_cons, List.append_assoc]

theorem ComputeChallenge_appendHash_first (D : Bytes → Bytes) (t : Transcript Bytes)
    (c : Bytes) (ch : challenge) (hget : mapGet t.challenges c = some ch)
    (hnc : ch.isComputed = false) (hpos : ch.position = 0) :
    ComputeChallenge (appendHash D) t c =
      ({ t with
          h := [],
          previous := some { ch with value := D (c ++ ch.bindings.flatten), isComputed := true } },
        Except.ok (D (c ++ ch.bindings.flatten))) := by
  simp [ComputeChallenge, hget, hnc, hpos, writeBindings_appendHash]
  simp [appendHash]

theorem ComputeChallenge_appendHash_next (D : Bytes → Bytes) (t : Transcript Bytes)
    (c : Bytes) (ch prev : challenge) (hget : mapGet t.challenges c = some ch)
    (hnc : ch.isComputed = false) (hpos : ch.position ≠ 0) (hprev : t.previous = some prev)
    (hpp : prev.position = ch.position - 1) :
    ComputeChallenge (appendHash D) t c =
      ({ t with
          h := [],
          previous := some { ch with value := D (c ++ prev.value ++ ch.bindings.flatten),
                                     isComputed := true } },
        Except.ok (D (c ++ prev.value ++ ch.bindings.flatten))) := by
  simp [ComputeChallenge, hget, hnc, hpos, hprev, hpp, writeBindings_appendHash]
  simp [appendHash]

/-! ## Reachable transcripts -/

theorem Bind_get_none_iff {σ : Type} (t : Transcript σ) (c x s : Bytes) :
    mapGet (Bind t c x).1.challenges s = none ↔ mapGet t.challenges s = none := by
  unfold Bind
  split
  · exact Iff.rfl
  · split
    · exact Iff.rfl
    · rename_i ch hget _
      simp only [mapGet_mapSet]
      by_cases hcs : c = s
      · rw [if_pos hcs, ← hcs, hget]
        simp
      · rw [if_neg hcs]

theorem run_get_none_iff {σ : Type} (H : Hash σ) (s : Bytes) (calls : List Call) :
    ∀ t : Transcript σ,
      mapGet (run H t calls).1.challenges s = none ↔ mapGet t.challenges s = none := by
  induction calls with
  | nil => intro t; exact Iff.rfl
  | cons call calls ih =>
    intro t
    simp only [run]
    rw [ih]
    cases call with
    | bind c x => exact Bind_get_none_iff t c x s
    | compute c =>
      simp only [step]
      rw [ComputeChallenge_challenges]

theorem nodup_index_unique {l : List Bytes} (hnd : l.Nodup) {i j : Nat} {a : Bytes}
    (hi : l[i]? = some a) (hj : l[j]? = some a) : i = j := by
  have hlen : ∀ {k : Nat}, l[k]? = some a → k < l.length := fun {k} hk => by
    by_contra hge
    rw [List.getElem?_eq_none (by omega)] at hk
    exact Option.noConfusion hk
  rcases Nat.lt_trichotomy i j with h | h | h
  · exact absurd (hi.trans hj.symm) (List.nodup_iff_getElem?_ne_getElem?.1 hnd i j h (hlen hj))
  · exact h
  · exact absurd (hj.trans hi.symm) (List.nodup_iff_getElem?_ne_getElem?.1 hnd j i h (hlen hi))

theorem ComputeChallenge_ok {σ : Type} (H : Hash σ) (t : Transcript σ) (c d : Bytes)
    (h : (ComputeChallenge H t c).2 = Except.ok d) :
    ∃ ch, mapGet t.challenges c = some ch ∧
      ((ch.isComputed = true ∧ (ComputeChallenge H t c).1 = t) ∨
       (ch.isComputed = false ∧
        (ComputeChallenge H t c).1.previous
          = some { ch with value := d, isComputed := true })) := by
  cases hget : mapGet t.challenges c with
  | none => simp [ComputeChallenge, hget] at h
  | some ch =>
    refine ⟨ch, rfl, ?_⟩
    cases hc : ch.isComputed with
    | true => left; simp [ComputeChallenge, hget, hc]
    | false =>
      right
      refine ⟨rfl, ?_⟩
      unfold ComputeChallenge at h ⊢
      simp only [hget, hc] at h ⊢
      repeat' split
      all_goals first
        | (exfalso; revert h; simp [*]; done)
        | simp_all

theorem NewTranscript_registryOK {σ : Type} (h0 : σ) (names : List Bytes) :
    registryOK names (NewTranscript h0 names).challenges := by
  intro c ch h
  obtain ⟨p, hp, hch⟩ := NewTranscript_get h0 names c ch h
  subst hch
  exact ⟨rfl, p, rfl, hp⟩

theorem Bind_registryOK {σ : Type} (names : List Bytes) (t : Transcript σ) (c x : Bytes)
    (h : registryOK names t.challenges) : registryOK names (Bind t c x).1.challenges := by
  unfold Bind
  split
  · exact h
  · split
    · exact h
    · rename_i ch hget _
      intro s sh hs
      simp only [mapGet_mapSet] at hs
      by_cases hcs : c = s
      · rw [if_pos hcs] at hs
        have := h c ch hget
        rw [← Option.some.inj hs, ← hcs]
        exact this
      · rw [if_neg hcs] at hs
        exact h s sh hs

theorem Bind_previous {σ : Type} (t : Transcript σ) (c x : Bytes) :
    (Bind t c x).1.previous = t.previous := by
  unfold Bind
  repeat' split
  all_goals rfl

theorem step_inv {σ : Type} (H : Hash σ) (names : List Bytes) (t : Transcript σ) (call : Call)
    (acc : Option Bytes) (hreg : registryOK names t.challenges)
    (hprev : previousOK names t.previous acc) :
    registryOK names (step H t call).1.challenges ∧
    previousOK names (step H t call).1.previous
      (match computedName call (step H t call).2 with
        | some challengeID => some challengeID
        | none => acc) := by
  cases call with
  | bind c x =>
    refine ⟨Bind_registryOK names t c x hreg, ?_⟩
    simp only [step, computedName, Bind_previous]
    exact hprev
  | compute c =>
    simp only [step]
    rw [ComputeChallenge_challenges]
    refine ⟨hreg, ?_⟩
    cases hres : (ComputeChallenge H t c).2 with
    | error e =>
      simp only [computedName]
      rw [ComputeChallenge_error_previous H t c e hres]
      exact hprev
    | ok d =>
      simp only [computedName]
      obtain ⟨ch, hget, hcase⟩ := ComputeChallenge_ok H t c d hres
      obtain ⟨hnc, p, hp, hn⟩ := hreg c ch hget
      rcases hcase with ⟨htrue, _⟩ | ⟨_, hnew⟩
      · rw [hnc] at htrue
        exact Bool.noConfusion htrue
      · intro q hq
        rw [hnew] at hq
        have hq' := Option.some.inj hq
        refine ⟨p, c, ?_, hn, rfl⟩
        rw [← hq']
        exact hp

theorem run_inv {σ : Type} (H : Hash σ) (names : List Bytes) (calls : List Call) :
    ∀ (t : Transcript σ) (acc : Option Bytes), registryOK names t.challenges →
      previousOK names t.previous acc →
      registryOK names (run H t calls).1.challenges ∧
      previousOK names (run H t calls).1.previous
        (lastComputedFrom acc calls (run H t calls).2) := by
  induction calls with
  | nil => intro t acc h1 h2; exact ⟨h1, h2⟩
  | cons call calls ih =>
    intro t acc h1 h2
    obtain ⟨h3, h4⟩ := step_inv H names t call acc h1 h2
    simp only [run, lastComputedFrom]
    cases hname : computedName call (step H t call).2 with
    | none =>
      rw [hname] at h4
      exact ih _ _ h3 h4
    | some n =>
      rw [hname] at h4
      exact ih _ _ h3 h4

theorem ComputeChallenge_previous_missing {σ : Type} (H : Hash σ)
    (hw : ∀ (s : σ) (b : Bytes), (H.Write s b).2 = none) (t : Transcript σ) (c : Bytes)
    (ch : challenge) (hget : mapGet t.challenges c = some ch) (hnc : ch.isComputed = false)
    (hpos : ch.position ≠ 0)
    (hprev : ∀ p : challenge, t.previous = some p → p.position ≠ ch.position - 1) :
    (ComputeChallenge H t c).2 = Except.error Error.errPreviousChallengeNotComputed := by
  have hw1 := hw (H.Reset t.h) c
  rcases hwr : H.Write (H.Reset t.h) c with ⟨s1, e⟩
  rw [hwr] at hw1
  simp only at hw1
  subst hw1
  cases hp : t.previous with
  | none => simp [ComputeChallenge, hget, hnc, hwr, hpos, hp]
  | some prev => simp [ComputeChallenge, hget, hnc, hwr, hpos, hp, hprev prev hp]

/-! ## Calls in declaration order -/

theorem boundValues_of_wellOrdered (c : Bytes) (calls : List Call) :
    ∀ pending : List Bytes, wellOrdered pending calls = true → c ∉ pending →
      boundValues c calls = [] := by
  induction calls with
  | nil => intro _ _ _; rfl
  | cons call calls ih =>
    intro pending hwo hc
    cases call with
    | bind c' v =>
      simp only [wellOrdered, Bool.and_eq_true, decide_eq_true_eq] at hwo
      have hne : c' ≠ c := fun h => hc (h ▸ hwo.1)
      simp only [boundValues, if_neg hne]
      exact ih pending hwo.2 hc
    | compute c' =>
      cases pending with
      | nil => simp [wellOrdered] at hwo
      | cons n pending =>
        simp only [wellOrdered, Bool.and_eq_true, decide_eq_true_eq] at hwo
        simp only [boundValues]
        exact ih pending hwo.2 (fun h => hc (List.mem_cons_of_mem _ h))

theorem run_chain (D : Bytes → Bytes) (names : List Bytes) (B : Bytes → List Bytes)
    (hnd : names.Nodup) (calls : List Call) :
    ∀ (j : Nat) (t : Transcript Bytes),
      wellOrdered (names.drop j) calls = true →
      (∀ (k : Nat) (c : Bytes), names[k]? = some c →
        ∃ ch, mapGet t.challenges c = some ch ∧ ch.position = (k : Int) ∧
          ch.isComputed = false ∧ (j ≤ k → ch.bindings ++ boundValues c calls = B c)) →
      (∀ j' : Nat, j = j' + 1 →
        ∃ p, t.previous = some p ∧ p.position = (j' : Int) ∧
          p.value = chainDigest D names B j') →
      (run (appendHash D) t calls).2 = expectedOutcomes D names B calls j := by
  induction calls with
  | nil => intro j t _ _ _; rfl
  | cons call calls ih =>
    intro j t hwo hreg hprev
    cases call with
    | bind c v =>
      simp only [wellOrdered, Bool.and_eq_true, decide_eq_true_eq] at hwo
      obtain ⟨hmem, hwo'⟩ := hwo
      obtain ⟨k0, hk0⟩ := List.mem_iff_getElem?.1 (List.mem_of_mem_drop hmem)
      obtain ⟨ch, hget, _, hnc, _⟩ := hreg k0 c hk0
      have hb := Bind_of_not_computed t c v ch hget hnc
      simp only [run, step, expectedOutcomes]
      rw [hb]
      simp only
      congr 1
      apply ih j _ hwo'
      · intro k s hs
        obtain ⟨sh, hsget, hspos, hsnc, hsb⟩ := hreg k s hs
        by_cases hcs : c = s
        · subst hcs
          rw [hget] at hsget
          have hsh := Option.some.inj hsget
          subst hsh
          refine ⟨{ ch with bindings := ch.bindings ++ [v] }, by simp [mapGet_mapSet], hspos,
            hsnc, fun hjk => ?_⟩
          have := hsb hjk
          simp only [boundValues, if_true] at this
          simpa using this
        · refine ⟨sh, by simp [mapGet_mapSet, hcs, hsget], hspos, hsnc, fun hjk => ?_⟩
          have := hsb hjk
          simp only [boundValues, if_neg hcs] at this
          exact this
      · exact hprev
    | compute c =>
      have hjlt : j < names.length := by
        by_contra hge
        rw [List.drop_of_length_le (by omega)] at hwo
        simp [wellOrdered] at hwo
      rw [List.drop_eq_getElem_cons hjlt] at hwo
      simp only [wellOrdered, Bool.and_eq_true, decide_eq_true_eq] at hwo
      obtain ⟨hcn, hwo'⟩ := hwo
      have hj : names[j]? = some c := by rw [List.getElem?_eq_getElem hjlt, hcn]
      have hgetD : names.getD j [] = c := by
        rw [List.getD_eq_getElem?_getD, hj]; rfl
      obtain ⟨ch, hget, hpos, hnc, hbind⟩ := hreg j c hj
      have hnotin : c ∉ names.drop (j + 1) := by
        intro hin
        obtain ⟨i, hi⟩ := List.mem_iff_getElem?.1 hin
        rw [List.getElem?_drop] at hi
        have := nodup_index_unique hnd hi hj
        omega
      have hbv : ch.bindings = B c := by
        have h1 := hbind (le_refl j)
        simp only [boundValues] at h1
        rw [boundValues_of_wellOrdered c calls _ hwo' hnotin, List.append_nil] at h1
        exact h1
      have hres : ∃ t', ComputeChallenge (appendHash D) t c =
          (t', Except.ok (chainDigest D names B j)) ∧ t'.challenges = t.challenges ∧
          ∃ p, t'.previous = some p ∧ p.position = (j : Int) ∧
            p.value = chainDigest D names B j := by
        cases j with
        | zero =>
          have hpos0 : ch.position = 0 := by simpa using hpos
          have hd : chainDigest D names B 0 = D (c ++ ch.bindings.flatten) := by
            simp only [chainDigest, hgetD, hbv]
          rw [ComputeChallenge_appendHash_first D t c ch hget hnc hpos0, hd]
          exact ⟨_, rfl, rfl, _, rfl, hpos, rfl⟩
        | succ j' =>
          obtain ⟨p, hp, hppos, hpval⟩ := hprev j' rfl
          have hpos1 : ch.position ≠ 0 := by rw [hpos]; exact_mod_cast Nat.succ_ne_zero j'
          have hpp : p.position = ch.position - 1 := by
            rw [hppos, hpos]; push_cast; ring
          have hd : chainDigest D names B (j' + 1)
              = D (c ++ p.value ++ ch.bindings.flatten) := by
            simp only [chainDigest, hgetD, hbv, hpval]
          rw [ComputeChallenge_appendHash_next D t c ch p hget hnc hpos1 hp hpp, hd]
          exact ⟨_, rfl, rfl, _, rfl, hpos, rfl⟩
      obtain ⟨t', hcc, hch', p, hp, hppos, hpval⟩ := hres
      simp only [run, step, expectedOutcomes]
      rw [hcc]
      simp only
      congr 1
      apply ih (j + 1) t' hwo'
      · intro k s hs
        obtain ⟨sh, hsget, hspos, hsnc, hsb⟩ := hreg k s hs
        refine ⟨sh, by rw [hch']; exact hsget, hspos, hsnc, fun hjk => ?_⟩
        have := hsb (by omega)
        simp only [boundValues] at this
        exact this
      · intro j' hj'
        have : j' = j := by omega
        subst this
        exact ⟨p, hp, hppos, hpval⟩

/-! ## The keys of the registry and repeated names -/

theorem mem_keys_iff (m : List (Bytes × challenge)) (k : Bytes) :
    k ∈ m.map Prod.fst ↔ mapGet m k ≠ none := by
  induction m with
  | nil => simp [mapGet]
  | cons e m ih =>
    obtain ⟨k0, c0⟩ := e
    by_cases h : k0 = k
    · simp [mapGet, h]
    · simp only [List.map_cons, List.mem_cons, mapGet, if_neg h, ← ih]
      constructor
      · rintro (h1 | h1)
        · exact absurd h1.symm h
        · exact h1
      · exact Or.inr

theorem keys_mapSet_of_mem (m : List (Bytes × challenge)) (k : Bytes) (c : challenge)
    (h : k ∈ m.map Prod.fst) : (mapSet m k c).map Prod.fst = m.map Prod.fst := by
  cases hget : mapGet m k with
  | none => exact absurd hget ((mem_keys_iff m k).1 h)
  | some c' => exact mapSet_keys m k c c' hget

theorem keys_mapSet_of_not_mem (m : List (Bytes × challenge)) (k : Bytes) (c : challenge)
    (h : k ∉ m.map Prod.fst) : (mapSet m k c).map Prod.fst = m.map Prod.fst ++ [k] := by
  induction m with
  | nil => simp [mapSet]
  | cons e m ih =>
    obtain ⟨k0, c0⟩ := e
    simp only [List.map_cons, List.mem_cons, not_or] at h
    have hne : k0 ≠ k := fun hk => h.1 hk.symm
    simp [mapSet, hne, ih h.2]

theorem keys_loop_nodup (l : List Bytes) :
    ∀ (i : Nat) (m : List (Bytes × challenge)), (m.map Prod.fst).Nodup →
      ((NewTranscript.loop l i m).map Prod.fst).Nodup := by
  induction l with
  | nil => intro i m h; exact h
  | cons id ids ih =>
    intro i m h
    apply ih
    by_cases hmem : id ∈ m.map Prod.fst
    · rw [keys_mapSet_of_mem m id _ hmem]
      exact h
    · rw [keys_mapSet_of_not_mem m id _ hmem]
      exact List.Nodup.append h (List.nodup_singleton id) (by simpa using hmem)

theorem keys_loop_of_nodup (l : List Bytes) :
    ∀ (i : Nat) (m : List (Bytes × challenge)), (m.map Prod.fst ++ l).Nodup →
      (NewTranscript.loop l i m).map Prod.fst = m.map Prod.fst ++ l := by
  induction l with
  | nil => intro i m _; simp [NewTranscript.loop]
  | cons id ids ih =>
    intro i m h
    have hmem : id ∉ m.map Prod.fst := by
      intro hin
      have := (List.nodup_append.1 h).2.2
      exact this hin (List.mem_cons_self _ _)
    simp only [NewTranscript.loop]
    rw [ih (i + 1) _ (by rw [keys_mapSet_of_not_mem m id _ hmem]; simpa using h),
      keys_mapSet_of_not_mem m id _ hmem]
    simp

theorem loop_get_of_not_mem (l : List Bytes) :
    ∀ (i : Nat) (m : List (Bytes × challenge)) (c : Bytes), c ∉ l →
      mapGet (NewTranscript.loop l i m) c = mapGet m c := by
  induction l with
  | nil => intro i m c _; rfl
  | cons id ids ih =>
    intro i m c hc
    have h1 : id ≠ c := fun h => hc (by simp [h])
    have h2 : c ∉ ids := fun h => hc (by simp [h])
    simp only [NewTranscript.loop]
    rw [ih _ _ _ h2, mapGet_mapSet, if_neg h1]

/-- The entry of a name of the list, after the construction loop, is the fresh entry of the
last index at which the name stands. -/
theorem loop_get_last (l : List Bytes) :
    ∀ (i : Nat) (m : List (Bytes × challenge)) (c : Bytes), c ∈ l →
      ∃ p : Nat, l[p]? = some c ∧ (∀ r : Nat, p < r → l[r]? ≠ some c) ∧
        mapGet (NewTranscript.loop l i m) c
          = some { position := ((i + p : Nat) : Int), bindings := [], value := [],
                   isComputed := false } := by
  induction l with
  | nil => intro i m c hc; simp at hc
  | cons id ids ih =>
    intro i m c hc
    by_cases hin : c ∈ ids
    · obtain ⟨p, hp, hlast, hget⟩ := ih (i + 1) (mapSet m id
        { position := (i : Int), bindings := [], value := [], isComputed := false }) c hin
      refine ⟨p + 1, by simpa using hp, ?_, ?_⟩
      · intro r hr
        obtain ⟨r', rfl⟩ : ∃ r', r = r' + 1 := ⟨r - 1, by omega⟩
        rw [List.getElem?_cons_succ]
        exact hlast r' (by omega)
      · simp only [NewTranscript.loop]
        rw [hget]
        have : i + 1 + p = i + (p + 1) := by omega
        rw [this]
    · have hid : c = id := by
        rcases List.mem_cons.1 hc with h | h
        · exact h
        · exact absurd h hin
      refine ⟨0, by simp [hid], ?_, ?_⟩
      · intro r hr
        obtain ⟨r', rfl⟩ : ∃ r', r = r' + 1 := ⟨r - 1, by omega⟩
        rw [List.getElem?_cons_succ]
        intro hget
        exact hin (List.mem_iff_getElem?.2 ⟨r', hget⟩)
      · simp only [NewTranscript.loop]
        rw [loop_get_of_not_mem ids _ _ c hin, mapGet_mapSet, if_pos hid.symm]
        simp

theorem NewTranscript_get_last {σ : Type} (h0 : σ) (names : List Bytes) (c : Bytes)
    (hc : c ∈ names) :
    ∃ p : Nat, names[p]? = some c ∧ (∀ r : Nat, p < r → names[r]? ≠ some c) ∧
      mapGet (NewTranscript h0 names).challenges c
        = some { position := (p : Int), bindings := [], value := [], isComputed := false } := by
  obtain ⟨p, hp, hlast, hget⟩ := loop_get_last names 0 [] c hc
  refine ⟨p, hp, hlast, ?_⟩
  show mapGet (NewTranscript.loop names 0 []) c = _
  rw [hget]
  simp

theorem NewTranscript_entriesOK {σ : Type} (h0 : σ) (names : List Bytes) :
    entriesOK (lastIndex names) (NewTranscript h0 names).challenges := by
  intro c ch h
  have hc : c ∈ names := by
    by_contra hn
    rw [(NewTranscript_get_none_iff h0 names c).2 hn] at h
    exact Option.noConfusion h
  obtain ⟨p, hp, hlast, hget⟩ := NewTranscript_get_last h0 names c hc
  rw [hget] at h
  have := Option.some.inj h
  subst this
  exact ⟨rfl, rfl, p, rfl, hp, hlast⟩

theorem keys_length_lt_of_not_nodup {keys names : List Bytes} (hk : keys.Nodup)
    (hsub : ∀ s, s ∈ keys → s ∈ names) (hn : ¬ names.Nodup) : keys.length < names.length := by
  have hsp : keys.Subperm names := List.subperm_of_subset hk hsub
  rcases Nat.lt_or_ge keys.length names.length with h | h
  · exact h
  · exact absurd ((hsp.perm_of_length_le h).nodup_iff.1 hk) hn

/-! ## Invariants of the registry -/

theorem Bind_entriesOK {σ : Type} (P : Bytes → Int → Prop) (t : Transcript σ) (c x : Bytes)
    (h : entriesOK P t.challenges) : entriesOK P (Bind t c x).1.challenges := by
  unfold Bind
  split
  · exact h
  · split
    · exact h
    · rename_i ch hget _
      intro s sh hs
      simp only [mapGet_mapSet] at hs
      by_cases hcs : c = s
      · rw [if_pos hcs] at hs
        have := h c ch hget
        rw [← Option.some.inj hs, ← hcs]
        exact this
      · rw [if_neg hcs] at hs
        exact h s sh hs

theorem run_entriesOK {σ : Type} (H : Hash σ) (P : Bytes → Int → Prop) (calls : List Call) :
    ∀ t : Transcript σ, entriesOK P t.challenges →
      entriesOK P (run H t calls).1.challenges := by
  induction calls with
  | nil => intro t h; exact h
  | cons call calls ih =>
    intro t h
    simp only [run]
    apply ih
    cases call with
    | bind c x => exact Bind_entriesOK P t c x h
    | compute c =>
      simp only [step]
      rw [ComputeChallenge_challenges]
      exact h

/-- Past the two early returns, `ComputeChallenge` leaves the hash in the state that a
`Reset` gives. -/
theorem ComputeChallenge_h_reset {σ : Type} (H : Hash σ) (t : Transcript σ) (c : Bytes)
    (ch : challenge) (hget : mapGet t.challenges c = some ch) (hnc : ch.isComputed = false) :
    ∃ s : σ, (ComputeChallenge H t c).1.h = H.Reset s := by
  unfold ComputeChallenge
  simp only [hget, hnc]
  repeat' split
  all_goals first
    | exact ⟨_, rfl⟩
    | simp_all

theorem writeBindings_counter {σ : Type} (H : Hash σ) (bs : List Bytes) :
    ∀ s : σ × Nat, s.2 ≤ (writeBindings (countingHash H) s bs).1.2 := by
  induction bs with
  | nil => intro s; exact le_refl _
  | cons b bs ih =>
    intro s
    rcases hwr : H.Write s.1 b with ⟨s1, e⟩
    have hw : (countingHash H).Write s b = ((s1, s.2 + 1), e) := by
      simp [countingHash, hwr]
    cases e with
    | none =>
      have := ih (s1, s.2 + 1)
      simp only [writeBindings, hw]
      exact le_trans (Nat.le_succ _) this
    | some e =>
      simp only [writeBindings, hw]
      exact Nat.le_succ _

theorem ComputeChallenge_counter_lt {σ : Type} (H : Hash σ) (t : Transcript (σ × Nat))
    (c : Bytes) (ch : challenge) (hget : mapGet t.challenges c = some ch)
    (hnc : ch.isComputed = false) :
    t.h.2 < (ComputeChallenge (countingHash H) t c).1.h.2 := by
  rcases hwr : H.Write (H.Reset t.h.1) c with ⟨s1, e⟩
  have hw : (countingHash H).Write ((countingHash H).Reset t.h) c
      = ((s1, t.h.2 + 1 + 1), e) := by
    simp [countingHash, hwr]
  have hreset : ∀ s : σ × Nat, ((countingHash H).Reset s).2 = s.2 + 1 := fun _ => rfl
  have hsum : ∀ s : σ × Nat, ((countingHash H).Sum s).2.2 = s.2 + 1 := fun _ => rfl
  cases e with
  | some e =>
    simp only [ComputeChallenge, hget, hnc, hw, Bool.false_eq_true, if_false, hreset]
    omega
  | none =>
    by_cases hpos : ch.position = 0
    · have hb := writeBindings_counter H ch.bindings (s1, t.h.2 + 1 + 1)
      rcases hwb : writeBindings (countingHash H) (s1, t.h.2 + 1 + 1) ch.bindings with ⟨s3, e3⟩
      rw [hwb] at hb
      simp only at hb
      cases e3 with
      | none =>
        simp only [ComputeChallenge, hget, hnc, hw, Bool.false_eq_true, if_false, hpos, ne_eq,
          not_true_eq_false, hwb, hreset, hsum]
        omega
      | some e3 =>
        simp only [ComputeChallenge, hget, hnc, hw, Bool.false_eq_true, if_false, hpos, ne_eq,
          not_true_eq_false, hwb, hreset]
        omega
    · cases hp : t.previous with
      | none =>
        simp only [ComputeChallenge, hget, hnc, hw, Bool.false_eq_true, if_false, hpos, ne_eq,
          not_false_eq_true, if_true, hp, hreset]
        omega
      | some prev =>
        by_cases hpp : prev.position = ch.position - 1
        · rcases hwr2 : H.Write s1 prev.value with ⟨s2, e2⟩
          have hw2 : (countingHash H).Write (s1, t.h.2 + 1 + 1) prev.value
              = ((s2, t.h.2 + 1 + 1 + 1), e2) := by
            simp [countingHash, hwr2]
          cases e2 with
          | some e2 =>
            simp only [ComputeChallenge, hget, hnc, hw, Bool.false_eq_true, if_false, hpos,
              ne_eq, not_false_eq_true, if_true, hp, hpp, not_true_eq_false, hw2, hreset]
            omega
          | none =>
            have hb := writeBindings_counter H ch.bindings (s2, t.h.2 + 1 + 1 + 1)
            rcases hwb : writeBindings (countingHash H) (s2, t.h.2 + 1 + 1 + 1) ch.bindings
              with ⟨s3, e3⟩
            rw [hwb] at hb
            simp only at hb
            cases e3 with
            | none =>
              simp only [ComputeChallenge, hget, hnc, hw, Bool.false_eq_true, if_false, hpos,
                ne_eq, not_false_eq_true, if_true, hp, hpp, not_true_eq_false, hw2, hwb,
                hreset, hsum]
              omega
            | some e3 =>
              simp only [ComputeChallenge, hget, hnc, hw, Bool.false_eq_true, if_false, hpos,
                ne_eq, not_false_eq_true, if_true, hp, hpp, not_true_eq_false, hw2, hwb,
                hreset]
              omega
        · simp only [ComputeChallenge, hget, hnc, hw, Bool.false_eq_true, if_false, hpos,
            ne_eq, not_false_eq_true, if_true, hp, hpp, hreset]
          omega

theorem ComputeChallenge_without_first {σ : Type} (H : Hash σ) (t : Transcript σ)
    (hent : ∀ (c : Bytes) (ch : challenge), mapGet t.challenges c = some ch →
      ch.isComputed = false ∧ ch.position ≠ 0)
    (hprev : t.previous = none) (c : Bytes) :
    ∃ e : Error, (ComputeChallenge H t c).2 = Except.error e ∧
      (mapGet t.challenges c = none → e = Error.errChallengeNotFound) ∧
      (mapGet t.challenges c ≠ none → (H.Write (H.Reset t.h) c).2 = none →
        e = Error.errPreviousChallengeNotComputed) := by
  cases hget : mapGet t.challenges c with
  | none =>
    exact ⟨_, by rw [ComputeChallenge_of_mapGet_none H t c hget], fun _ => rfl,
      fun h => absurd rfl h⟩
  | some ch =>
    obtain ⟨hnc, hpos⟩ := hent c ch hget
    rcases hwr : H.Write (H.Reset t.h) c with ⟨s1, e⟩
    cases e with
    | none =>
      refine ⟨Error.errPreviousChallengeNotComputed, ?_, fun h => Option.noConfusion h,
        fun _ _ => rfl⟩
      simp [ComputeChallenge, hget, hnc, hwr, hpos, hprev]
    | some e =>
      refine ⟨e, ?_, fun h => Option.noConfusion h, fun _ h => Option.noConfusion h⟩
      simp [ComputeChallenge, hget, hnc, hwr]

theorem run_without_first {σ : Type} (H : Hash σ) (P : Bytes → Int → Prop)
    (hP : ∀ (c : Bytes) (p : Int), P c p → p ≠ 0) (calls : List Call) :
    ∀ t : Transcript σ, entriesOK P t.challenges → t.previous = none →
      (run H t calls).1.previous = none := by
  induction calls with
  | nil => intro t _ h; exact h
  | cons call calls ih =>
    intro t hent hprev
    simp only [run]
    cases call with
    | bind c x =>
      apply ih _ (Bind_entriesOK P t c x hent)
      show (Bind t c x).1.previous = none
      rw [Bind_previous]
      exact hprev
    | compute c =>
      simp only [step]
      apply ih
      · rw [ComputeChallenge_challenges]
        exact hent
      · obtain ⟨e, he, _⟩ := ComputeChallenge_without_first H t
          (fun s sh hs => ⟨(hent s sh hs).1, hP s _ (hent s sh hs).2.2⟩) hprev c
        rw [ComputeChallenge_error_previous H t c e he]
        exact hprev

theorem lastIndex_ne_zero (n0 : Bytes) (rest : List Bytes) (hrep : n0 ∈ rest) (c : Bytes)
    (p : Int) (h : lastIndex (n0 :: rest) c p) : p ≠ 0 := by
  obtain ⟨q, hq, hget, hlast⟩ := h
  intro hp
  have hq0 : q = 0 := by omega
  subst hq0
  have hc : n0 = c := by simpa using hget
  obtain ⟨r, hr⟩ := List.mem_iff_getElem?.1 hrep
  apply hlast (r + 1) (by omega)
  rw [List.getElem?_cons_succ, hr, hc]

/-! ## Digests along the chain -/

theorem computedDigests_expectedOutcomes (D : Bytes → Bytes) (names : List Bytes)
    (B : Bytes → List Bytes) (calls : List Call) :
    ∀ (j k : Nat), k < computeCount calls →
      (computedDigests (expectedOutcomes D names B calls j))[k]?
        = some (chainDigest D names B (j + k)) := by
  induction calls with
  | nil => intro j k hk; simp [computeCount] at hk
  | cons call calls ih =>
    intro j k hk
    cases call with
    | bind c v =>
      simp only [computeCount] at hk
      simp only [expectedOutcomes, computedDigests]
      exact ih j k hk
    | compute c =>
      simp only [computeCount] at hk
      simp only [expectedOutcomes, computedDigests]
      cases k with
      | zero => simp
      | succ k =>
        rw [List.getElem?_cons_succ, ih (j + 1) k (by omega)]
        congr 2
        omega

theorem getD_ne_of_nodup {names : List Bytes} (hnd : names.Nodup) {i j : Nat}
    (hi : i < names.length) (hj : j < names.length) (hij : i ≠ j) :
    names.getD i [] ≠ names.getD j [] := by
  intro h
  apply hij
  have h1 : names[i]? = some (names.getD i []) := by
    rw [List.getD_eq_getElem?_getD, List.getElem?_eq_getElem hi]; rfl
  have h2 : names[j]? = some (names.getD i []) := by
    rw [h, List.getD_eq_getElem?_getD, List.getElem?_eq_getElem hj]; rfl
  exact nodup_index_unique hnd h1 h2

/-- With an injective digest function, a change in the concatenation of the values bound to
the first name changes every digest of the chain. -/
theorem chainDigest_ne (D : Bytes → Bytes) (hD : Function.Injective D) (names : List Bytes)
    (hnd : names.Nodup) (B B' : Bytes → List Bytes)
    (hsame : ∀ c : Bytes, c ≠ names.getD 0 [] → B c = B' c)
    (hdiff : (B (names.getD 0 [])).flatten ≠ (B' (names.getD 0 [])).flatten) :
    ∀ k : Nat, k < names.length → chainDigest D names B k ≠ chainDigest D names B' k := by
  intro k
  induction k with
  | zero =>
    intro _ h
    simp only [chainDigest] at h
    exact hdiff (List.append_cancel_left (hD h))
  | succ k ih =>
    intro hk h
    simp only [chainDigest] at h
    have hne := getD_ne_of_nodup hnd hk (by omega : 0 < names.length) (Nat.succ_ne_zero k)
    rw [hsame _ hne] at h
    have h1 := List.append_cancel_right (hD h)
    exact ih (by omega) (List.append_cancel_left h1)


theorem run_eq_expectedOutcomes (D : Bytes → Bytes) (h0 : Bytes) (names : List Bytes)
    (calls : List Call) (hnd : names.Nodup) (hwo : wellOrdered names calls = true) :
    (run (appendHash D) (NewTranscript h0 names) calls).2
      = expectedOutcomes D names (fun c => boundValues c calls) calls 0 := by
  apply run_chain D names _ hnd calls 0 _ (by simpa using hwo)
  · intro k c hc
    obtain ⟨p, hp, _, hget⟩ := NewTranscript_get_last h0 names c (List.mem_iff_getElem?.2 ⟨k, hc⟩)
    rw [nodup_index_unique hnd hp hc] at hget
    exact ⟨_, hget, rfl, rfl, fun _ => by simp⟩
  · intro j' hj'
    omega

/-! ## The calls that `ComputeChallenge` makes on the hash -/

theorem writeBindings_log {σ : Type} (H : Hash σ) (bs : List Bytes) :
    ∀ s : σ × List HashCall, ∃ W : List HashCall,
      (writeBindings (loggingHash H) s bs).1.2 = s.2 ++ W ∧
      ((writeBindings (loggingHash H) s bs).2 = none → noFailedWrite W) ∧
      (∀ e : Error, (writeBindings (loggingHash H) s bs).2 = some e →
        ∃ (W0 : List HashCall) (b : Bytes),
          W = W0 ++ [HashCall.write b (some e)] ∧ noFailedWrite W0) := by
  induction bs with
  | nil =>
    intro s
    refine ⟨[], by simp [writeBindings], fun _ => by simp [noFailedWrite], ?_⟩
    intro e he
    simp [writeBindings] at he
  | cons b bs ih =>
    intro s
    rcases hwr : H.Write s.1 b with ⟨s1, e⟩
    have hw : (loggingHash H).Write s b = ((s1, s.2 ++ [HashCall.write b e]), e) := by
      simp [loggingHash, hwr]
    cases e with
    | none =>
      obtain ⟨W, hW, hnone, hsome⟩ := ih (s1, s.2 ++ [HashCall.write b none])
      refine ⟨HashCall.write b none :: W, ?_, ?_, ?_⟩
      · simp only [writeBindings, hw]
        rw [hW]
        simp
      · simp only [writeBindings, hw]
        intro h b' e' hmem
        rcases List.mem_cons.1 hmem with h1 | h1
        · cases h1
        · exact hnone h b' e' h1
      · simp only [writeBindings, hw]
        intro e' he'
        obtain ⟨W0, b', hW0, hnf⟩ := hsome e' he'
        refine ⟨HashCall.write b none :: W0, b', by rw [hW0]; rfl, ?_⟩
        intro b'' e'' hmem
        rcases List.mem_cons.1 hmem with h1 | h1
        · cases h1
        · exact hnf b'' e'' h1
    | some e =>
      refine ⟨[HashCall.write b (some e)], ?_, ?_, ?_⟩
      · simp only [writeBindings, hw]
      · simp only [writeBindings, hw]
        intro h
        exact Option.noConfusion h
      · simp only [writeBindings, hw]
        intro e' he'
        have := Option.some.inj he'
        subst this
        exact ⟨[], b, rfl, by simp [noFailedWrite]⟩

/-- The calls that `ComputeChallenge` makes on the hash: no `Write` among them fails, or
they end with the `Write` that failed and the deferred `Reset`, and the error of that
`Write` is returned. -/
theorem ComputeChallenge_log {σ : Type} (H : Hash σ) (t : Transcript (σ × List HashCall))
    (c : Bytes) :
    ∃ L : List HashCall, (ComputeChallenge (loggingHash H) t c).1.h.2 = t.h.2 ++ L ∧
      (noFailedWrite L ∨
        ∃ (pre : List HashCall) (b : Bytes) (e : Error), noFailedWrite pre ∧
          L = pre ++ [HashCall.write b (some e), HashCall.reset] ∧
          (ComputeChallenge (loggingHash H) t c).2 = Except.error e) := by
  have hreset : ∀ s : σ × List HashCall,
      ((loggingHash H).Reset s).2 = s.2 ++ [HashCall.reset] := fun _ => rfl
  have hsum : ∀ s : σ × List HashCall,
      ((loggingHash H).Sum s).2.2 = s.2 ++ [HashCall.sum] := fun _ => rfl
  cases hget : mapGet t.challenges c with
  | none =>
    refine ⟨[], ?_, Or.inl (by simp [noFailedWrite])⟩
    rw [ComputeChallenge_of_mapGet_none _ t c hget]
    simp
  | some ch =>
    cases hnc : ch.isComputed with
    | true =>
      refine ⟨[], ?_, Or.inl (by simp [noFailedWrite])⟩
      simp [ComputeChallenge, hget, hnc]
    | false =>
      rcases hwr : H.Write (H.Reset t.h.1) c with ⟨s1, e⟩
      have hw : (loggingHash H).Write ((loggingHash H).Reset t.h) c
          = ((s1, t.h.2 ++ [HashCall.reset, HashCall.write c e]), e) := by
        simp [loggingHash, hwr]
      cases e with
      | some e =>
        refine ⟨[HashCall.reset, HashCall.write c (some e), HashCall.reset], ?_,
          Or.inr ⟨[HashCall.reset], c, e, by simp [noFailedWrite], rfl, ?_⟩⟩
        · simp [ComputeChallenge, hget, hnc, hw, hreset]
        · simp [ComputeChallenge, hget, hnc, hw]
      | none =>
        by_cases hpos : ch.position = 0
        · obtain ⟨W, hW, hnone, hsome⟩ := writeBindings_log H ch.bindings
            (s1, t.h.2 ++ [HashCall.reset, HashCall.write c none])
          rcases hwb : writeBindings (loggingHash H)
            (s1, t.h.2 ++ [HashCall.reset, HashCall.write c none]) ch.bindings with ⟨s3, e3⟩
          rw [hwb] at hW hnone hsome
          simp only at hW hnone hsome
          cases e3 with
          | none =>
            refine ⟨[HashCall.reset, HashCall.write c none] ++ W
              ++ [HashCall.sum, HashCall.reset], ?_, Or.inl ?_⟩
            · simp [ComputeChallenge, hget, hnc, hw, hpos, hwb, hreset, hsum, hW]
            · have := hnone rfl
              intro b e hmem
              simp only [List.mem_append, List.mem_cons, List.mem_singleton] at hmem
              rcases hmem with (h1 | h1) | h1
              · simp at h1
              · exact this b e h1
              · simp at h1
          | some e3 =>
            obtain ⟨W0, b, hW0, hnf⟩ := hsome e3 rfl
            refine ⟨[HashCall.reset, HashCall.write c none] ++ W0
              ++ [HashCall.write b (some e3), HashCall.reset], ?_,
              Or.inr ⟨[HashCall.reset, HashCall.write c none] ++ W0, b, e3, ?_, rfl, ?_⟩⟩
            · simp [ComputeChallenge, hget, hnc, hw, hpos, hwb, hreset, hW, hW0]
            · intro b' e' hmem
              simp only [List.mem_append, List.mem_cons] at hmem
              rcases hmem with h1 | h1
              · simp at h1
              · exact hnf b' e' h1
            · simp [ComputeChallenge, hget, hnc, hw, hpos, hwb]
        · cases hp : t.previous with
          | none =>
            refine ⟨[HashCall.reset, HashCall.write c none, HashCall.reset], ?_,
              Or.inl (by simp [noFailedWrite])⟩
            simp [ComputeChallenge, hget, hnc, hw, hpos, hp, hreset]
          | some prev =>
            by_cases hpp : prev.position = ch.position - 1
            · rcases hwr2 : H.Write s1 prev.value with ⟨s2, e2⟩
              have hw2 : (loggingHash H).Write
                  (s1, t.h.2 ++ [HashCall.reset, HashCall.write c none]) prev.value
                  = ((s2, t.h.2 ++ [HashCall.reset, HashCall.write c none,
                      HashCall.write prev.value e2]), e2) := by
                simp [loggingHash, hwr2]
              cases e2 with
              | some e2 =>
                refine ⟨[HashCall.reset, HashCall.write c none,
                  HashCall.write prev.value (some e2), HashCall.reset], ?_,
                  Or.inr ⟨[HashCall.reset, HashCall.write c none], prev.value, e2,
                    by simp [noFailedWrite], rfl, ?_⟩⟩
                · simp [ComputeChallenge, hget, hnc, hw, hpos, hp, hpp, hw2, hreset]
                · simp [ComputeChallenge, hget, hnc, hw, hpos, hp, hpp, hw2]
              | none =>
                obtain ⟨W, hW, hnone, hsome⟩ := writeBindings_log H ch.bindings
                  (s2, t.h.2 ++ [HashCall.reset, HashCall.write c none,
                    HashCall.write prev.value none])
                rcases hwb : writeBindings (loggingHash H)
                  (s2, t.h.2 ++ [HashCall.reset, HashCall.write c none,
                    HashCall.write prev.value none]) ch.bindings with ⟨s3, e3⟩
                rw [hwb] at hW hnone hsome
                simp only at hW hnone hsome
                cases e3 with
                | none =>
                  refine ⟨[HashCall.reset, HashCall.write c none,
                    HashCall.write prev.value none] ++ W ++ [HashCall.sum, HashCall.reset],
                    ?_, Or.inl ?_⟩
                  · simp [ComputeChallenge, hget, hnc, hw, hpos, hp, hpp, hw2, hwb, hreset,
                      hsum, hW]
                  · have := hnone rfl
                    intro b e hmem
                    simp only [List.mem_append, List.mem_cons, List.mem_singleton] at hmem
                    rcases hmem with (h1 | h1) | h1
                    · simp at h1
                    · exact this b e h1
                    · simp at h1
                | some e3 =>
                  obtain ⟨W0, b, hW0, hnf⟩ := hsome e3 rfl
                  refine ⟨[HashCall.reset, HashCall.write c none,
                    HashCall.write prev.value none] ++ W0
                    ++ [HashCall.write b (some e3), HashCall.reset], ?_,
                    Or.inr ⟨[HashCall.reset, HashCall.write c none,
                      HashCall.write prev.value none] ++ W0, b, e3, ?_, rfl, ?_⟩⟩
                  · simp [ComputeChallenge, hget, hnc, hw, hpos, hp, hpp, hw2, hwb, hreset,
                      hW, hW0]
                  · intro b' e' hmem
                    simp only [List.mem_append, List.mem_cons] at hmem
                    rcases hmem with h1 | h1
                    · simp at h1
                    · exact hnf b' e' h1
                  · simp [ComputeChallenge, hget, hnc, hw, hpos, hp, hpp, hw2, hwb]
            · refine ⟨[HashCall.reset, HashCall.write c none, HashCall.reset], ?_,
                Or.inl (by simp [noFailedWrite])⟩
              simp [ComputeChallenge, hget, hnc, hw, hpos, hp, hpp, hreset]

/-! ## Hashes that forget at `Reset` -/

theorem Bind_congr {σ : Type} (t u : Transcript σ) (c x : Bytes)
    (hch : t.challenges = u.challenges) (hpr : t.previous = u.previous) :
    (Bind t c x).2 = (Bind u c x).2 ∧
    (Bind t c x).1.challenges = (Bind u c x).1.challenges ∧
    (Bind t c x).1.previous = (Bind u c x).1.previous := by
  cases hget : mapGet t.challenges c with
  | none =>
    rw [Bind_of_mapGet_none t c x hget, Bind_of_mapGet_none u c x (hch ▸ hget)]
    exact ⟨rfl, hch, hpr⟩
  | some ch =>
    have hget' : mapGet u.challenges c = some ch := hch ▸ hget
    cases hnc : ch.isComputed with
    | true =>
      simp only [Bind, hget, hget', hnc, if_true]
      exact ⟨trivial, hch, hpr⟩
    | false =>
      rw [Bind_of_not_computed t c x ch hget hnc, Bind_of_not_computed u c x ch hget' hnc]
      exact ⟨rfl, by simp [hch], hpr⟩

theorem writeBindings_related {σ : Type} (H : Hash σ) (R : σ → σ → Prop)
    (hW : ∀ (s s' : σ) (b : Bytes), R s s' →
      R (H.Write s b).1 (H.Write s' b).1 ∧ (H.Write s b).2 = (H.Write s' b).2)
    (bs : List Bytes) :
    ∀ s s' : σ, R s s' →
      R (writeBindings H s bs).1 (writeBindings H s' bs).1 ∧
      (writeBindings H s bs).2 = (writeBindings H s' bs).2 := by
  induction bs with
  | nil => intro s s' h; exact ⟨h, rfl⟩
  | cons b bs ih =>
    intro s s' h
    obtain ⟨h1, h2⟩ := hW s s' b h
    rcases hwr : H.Write s b with ⟨s1, e⟩
    rcases hwr' : H.Write s' b with ⟨s1', e'⟩
    rw [hwr, hwr'] at h1 h2
    simp only at h1 h2
    subst h2
    cases e with
    | none =>
      simp only [writeBindings, hwr, hwr']
      exact ih s1 s1' h1
    | some e =>
      simp only [writeBindings, hwr, hwr']
      exact ⟨h1, trivial⟩

theorem ComputeChallenge_related {σ : Type} (H : Hash σ) (R : σ → σ → Prop)
    (hR : ∀ s s' : σ, R (H.Reset s) (H.Reset s'))
    (hW : ∀ (s s' : σ) (b : Bytes), R s s' →
      R (H.Write s b).1 (H.Write s' b).1 ∧ (H.Write s b).2 = (H.Write s' b).2)
    (hS : ∀ s s' : σ, R s s' → (H.Sum s).1 = (H.Sum s').1)
    (t u : Transcript σ) (c : Bytes)
    (hch : t.challenges = u.challenges) (hpr : t.previous = u.previous) :
    (ComputeChallenge H t c).2 = (ComputeChallenge H u c).2 ∧
    (ComputeChallenge H t c).1.challenges = (ComputeChallenge H u c).1.challenges ∧
    (ComputeChallenge H t c).1.previous = (ComputeChallenge H u c).1.previous := by
  refine ⟨?_, by rw [ComputeChallenge_challenges, ComputeChallenge_challenges, hch], ?_⟩
  all_goals
    cases hget : mapGet t.challenges c with
    | none =>
      rw [ComputeChallenge_of_mapGet_none H t c hget,
        ComputeChallenge_of_mapGet_none H u c (hch ▸ hget)]
      try (first | rfl | exact hpr)
    | some ch =>
      have hget' : mapGet u.challenges c = some ch := hch ▸ hget
      cases hnc : ch.isComputed with
      | true =>
        simp only [ComputeChallenge, hget, hget', hnc, if_true]
        try (first | rfl | exact hpr)
      | false =>
        obtain ⟨h1, h2⟩ := hW _ _ c (hR t.h u.h)
        rcases hwr : H.Write (H.Reset t.h) c with ⟨s1, e⟩
        rcases hwr' : H.Write (H.Reset u.h) c with ⟨s1', e'⟩
        rw [hwr, hwr'] at h1 h2
        simp only at h1 h2
        subst h2
        have tail : ∀ s s' : σ, R s s' →
            ∃ (s3 s3' : σ) (e3 : Option Error),
              writeBindings H s ch.bindings = (s3, e3) ∧
              writeBindings H s' ch.bindings = (s3', e3) ∧
              (H.Sum s3).1 = (H.Sum s3').1 := by
          intro s s' h
          obtain ⟨h3, h4⟩ := writeBindings_related H R hW ch.bindings s s' h
          exact ⟨_, _, _, rfl, Prod.ext rfl h4.symm, hS _ _ h3⟩
        cases e with
        | some e =>
          simp only [ComputeChallenge, hget, hget', hnc, hwr, hwr', Bool.false_eq_true, if_false]
          try (first | rfl | exact hpr)
        | none =>
          by_cases hpos : ch.position = 0
          · obtain ⟨s3, s3', e3, hb, hb', hsum⟩ := tail s1 s1' h1
            cases e3 with
            | none =>
              simp only [ComputeChallenge, hget, hget', hnc, hwr, hwr', Bool.false_eq_true,
                if_false, hpos, ne_eq, not_true_eq_false, hb, hb', hsum]
            | some e3 =>
              simp only [ComputeChallenge, hget, hget', hnc, hwr, hwr', Bool.false_eq_true,
                if_false, hpos, ne_eq, not_true_eq_false, hb, hb']
              try (first | rfl | exact hpr)
          · cases hp : t.previous with
            | none =>
              have hp' : u.previous = none := hpr ▸ hp
              simp only [ComputeChallenge, hget, hget', hnc, hwr, hwr', Bool.false_eq_true,
                if_false, hpos, ne_eq, not_false_eq_true, if_true, hp, hp']
            | some prev =>
              have hp' : u.previous = some prev := hpr ▸ hp
              by_cases hpp : prev.position = ch.position - 1
              · obtain ⟨h5, h6⟩ := hW _ _ prev.value h1
                rcases hwr2 : H.Write s1 prev.value with ⟨s2, e2⟩
                rcases hwr2' : H.Write s1' prev.value with ⟨s2', e2'⟩
                rw [hwr2, hwr2'] at h5 h6
                simp only at h5 h6
                subst h6
                cases e2 with
                | some e2 =>
                  simp only [ComputeChallenge, hget, hget', hnc, hwr, hwr', Bool.false_eq_true,
                    if_false, hpos, ne_eq, not_false_eq_true, if_true, hp, hp', hpp,
                    not_true_eq_false, hwr2, hwr2']
                | none =>
                  obtain ⟨s3, s3', e3, hb, hb', hsum⟩ := tail s2 s2' h5
                  cases e3 with
                  | none =>
                    simp only [ComputeChallenge, hget, hget', hnc, hwr, hwr',
                      Bool.false_eq_true, if_false, hpos, ne_eq, not_false_eq_true, if_true,
                      hp, hp', hpp, not_true_eq_false, hwr2, hwr2', hb, hb', hsum]
                  | some e3 =>
                    simp only [ComputeChallenge, hget, hget', hnc, hwr, hwr',
                      Bool.false_eq_true, if_false, hpos, ne_eq, not_false_eq_true, if_true,
                      hp, hp', hpp, not_true_eq_false, hwr2, hwr2', hb, hb']
              · simp only [ComputeChallenge, hget, hget', hnc, hwr, hwr', Bool.false_eq_true,
                  if_false, hpos, ne_eq, not_false_eq_true, if_true, hp, hp', hpp]

theorem run_related {σ : Type} (H : Hash σ) (R : σ → σ → Prop)
    (hR : ∀ s s' : σ, R (H.Reset s) (H.Reset s'))
    (hW : ∀ (s s' : σ) (b : Bytes), R s s' →
      R (H.Write s b).1 (H.Write s' b).1 ∧ (H.Write s b).2 = (H.Write s' b).2)
    (hS : ∀ s s' : σ, R s s' → (H.Sum s).1 = (H.Sum s').1) (calls : List Call) :
    ∀ t u : Transcript σ, t.challenges = u.challenges → t.previous = u.previous →
      (run H t calls).2 = (run H u calls).2 := by
  induction calls with
  | nil => intro t u _ _; rfl
  | cons call calls ih =>
    intro t u hch hpr
    cases call with
    | bind c x =>
      obtain ⟨h1, h2, h3⟩ := Bind_congr t u c x hch hpr
      simp only [run, step]
      rw [h1, ih _ _ h2 h3]
    | compute c =>
      obtain ⟨h1, h2, h3⟩ := ComputeChallenge_related H R hR hW hS t u c hch hpr
      simp only [run, step]
      rw [h1, ih _ _ h2 h3]

/-! ## Transcripts up to the cuts of the bindings -/

theorem optSameUpToCuts_refl (a : Option challenge) : optSameUpToCuts a a := by
  cases a with
  | none => trivial
  | some a => exact ⟨rfl, rfl, rfl, rfl⟩

theorem Bind_sameUpToCuts {σ : Type} (t u : Transcript σ) (c x : Bytes)
    (h : transcriptsSameUpToCuts t u) :
    (Bind t c x).2 = (Bind u c x).2 ∧
    transcriptsSameUpToCuts (Bind t c x).1 (Bind u c x).1 := by
  obtain ⟨hprev, hreg⟩ := h
  have hc := hreg c
  cases hget : mapGet t.challenges c with
  | none =>
    cases hget' : mapGet u.challenges c with
    | none =>
      rw [Bind_of_mapGet_none t c x hget, Bind_of_mapGet_none u c x hget']
      exact ⟨rfl, hprev, hreg⟩
    | some b => rw [hget, hget'] at hc; exact hc.elim
  | some a =>
    cases hget' : mapGet u.challenges c with
    | none => rw [hget, hget'] at hc; exact hc.elim
    | some b =>
      rw [hget, hget'] at hc
      obtain ⟨h1, h2, h3, h4⟩ := hc
      cases hnc : a.isComputed with
      | true =>
        have hnc' : b.isComputed = true := by rw [← h4, hnc]
        simp only [Bind, hget, hget', hnc, hnc', if_true]
        exact ⟨trivial, hprev, hreg⟩
      | false =>
        have hnc' : b.isComputed = false := by rw [← h4, hnc]
        rw [Bind_of_not_computed t c x a hget hnc, Bind_of_not_computed u c x b hget' hnc']
        refine ⟨rfl, hprev, fun s => ?_⟩
        simp only [mapGet_mapSet]
        by_cases hcs : c = s
        · rw [if_pos hcs, if_pos hcs]
          exact ⟨h1, by simp [h2], h3, h4⟩
        · rw [if_neg hcs, if_neg hcs]
          exact hreg s

theorem ComputeChallenge_sameUpToCuts (D : Bytes → Bytes) (t u : Transcript Bytes) (c : Bytes)
    (h : transcriptsSameUpToCuts t u) :
    (ComputeChallenge (appendHash D) t c).2 = (ComputeChallenge (appendHash D) u c).2 ∧
    transcriptsSameUpToCuts (ComputeChallenge (appendHash D) t c).1
      (ComputeChallenge (appendHash D) u c).1 := by
  obtain ⟨hprev, hreg⟩ := h
  have hw : ∀ (s b : Bytes), ((appendHash D).Write s b).2 = none := fun _ _ => rfl
  have hc := hreg c
  have herr : ∀ e : Error,
      (ComputeChallenge (appendHash D) t c).2 = Except.error e →
      (ComputeChallenge (appendHash D) u c).2 = Except.error e →
      (ComputeChallenge (appendHash D) t c).2 = (ComputeChallenge (appendHash D) u c).2 ∧
      transcriptsSameUpToCuts (ComputeChallenge (appendHash D) t c).1
        (ComputeChallenge (appendHash D) u c).1 := by
    intro e h1 h2
    refine ⟨h1.trans h2.symm, ?_, ?_⟩
    · rw [ComputeChallenge_error_previous _ t c e h1, ComputeChallenge_error_previous _ u c e h2]
      exact hprev
    · rw [ComputeChallenge_challenges, ComputeChallenge_challenges]
      exact hreg
  cases hget : mapGet t.challenges c with
  | none =>
    cases hget' : mapGet u.challenges c with
    | none =>
      rw [ComputeChallenge_of_mapGet_none _ t c hget, ComputeChallenge_of_mapGet_none _ u c hget']
      exact ⟨rfl, hprev, hreg⟩
    | some b => rw [hget, hget'] at hc; exact hc.elim
  | some a =>
    cases hget' : mapGet u.challenges c with
    | none => rw [hget, hget'] at hc; exact hc.elim
    | some b =>
      rw [hget, hget'] at hc
      obtain ⟨h1, h2, h3, h4⟩ := hc
      cases hnc : a.isComputed with
      | true =>
        have hnc' : b.isComputed = true := by rw [← h4, hnc]
        simp only [ComputeChallenge, hget, hget', hnc, hnc', if_true, h3]
        exact ⟨trivial, hprev, hreg⟩
      | false =>
        have hnc' : b.isComputed = false := by rw [← h4, hnc]
        by_cases hpos : a.position = 0
        · have hpos' : b.position = 0 := by rw [← h1, hpos]
          rw [ComputeChallenge_appendHash_first D t c a hget hnc hpos,
            ComputeChallenge_appendHash_first D u c b hget' hnc' hpos', h2]
          exact ⟨rfl, ⟨h1, h2, rfl, rfl⟩, hreg⟩
        · have hpos' : b.position ≠ 0 := by rw [← h1]; exact hpos
          cases hp : t.previous with
          | none =>
            cases hp' : u.previous with
            | none =>
              exact herr _
                (ComputeChallenge_previous_missing _ hw t c a hget hnc hpos
                  (fun p hpp => by rw [hp] at hpp; exact Option.noConfusion hpp))
                (ComputeChallenge_previous_missing _ hw u c b hget' hnc' hpos'
                  (fun p hpp => by rw [hp'] at hpp; exact Option.noConfusion hpp))
            | some q => rw [hp, hp'] at hprev; exact hprev.elim
          | some p =>
            cases hp' : u.previous with
            | none => rw [hp, hp'] at hprev; exact hprev.elim
            | some q =>
              have hpq : sameUpToCuts p q := by rw [hp, hp'] at hprev; exact hprev
              obtain ⟨g1, _, g3, _⟩ := hpq
              by_cases hpp : p.position = a.position - 1
              · have hqq : q.position = b.position - 1 := by rw [← g1, ← h1, hpp]
                rw [ComputeChallenge_appendHash_next D t c a p hget hnc hpos hp hpp,
                  ComputeChallenge_appendHash_next D u c b q hget' hnc' hpos' hp' hqq, h2, g3]
                exact ⟨rfl, ⟨h1, h2, rfl, rfl⟩, hreg⟩
              · have hqq : q.position ≠ b.position - 1 := by rw [← g1, ← h1]; exact hpp
                exact herr _
                  (ComputeChallenge_previous_missing _ hw t c a hget hnc hpos
                    (fun r hr => by
                      rw [hp] at hr
                      rw [← Option.some.inj hr]
                      exact hpp))
                  (ComputeChallenge_previous_missing _ hw u c b hget' hnc' hpos'
                    (fun r hr => by
                      rw [hp'] at hr
                      rw [← Option.some.inj hr]
                      exact hqq))

theorem run_sameUpToCuts (D : Bytes → Bytes) (calls : List Call) :
    ∀ t u : Transcript Bytes, transcriptsSameUpToCuts t u →
      (run (appendHash D) t calls).2 = (run (appendHash D) u calls).2 := by
  induction calls with
  | nil => intro t u _; rfl
  | cons call calls ih =>
    intro t u h
    cases call with
    | bind c x =>
      obtain ⟨h1, h2⟩ := Bind_sameUpToCuts t u c x h
      simp only [run, step]
      rw [h1, ih _ _ h2]
    | compute c =>
      obtain ⟨h1, h2⟩ := ComputeChallenge_sameUpToCuts D t u c h
      simp only [run, step]
      rw [h1, ih _ _ h2]

theorem Bind_twice_sameUpToCuts {σ : Type} (t : Transcript σ) (c x y : Bytes) :
    transcriptsSameUpToCuts (Bind (Bind t c x).1 c y).1 (Bind t c (x ++ y)).1 := by
  cases hget : mapGet t.challenges c with
  | none =>
    rw [Bind_of_mapGet_none t c x hget, Bind_of_mapGet_none t c (x ++ y) hget]
    simp only
    rw [Bind_of_mapGet_none t c y hget]
    exact ⟨optSameUpToCuts_refl _, fun s => optSameUpToCuts_refl _⟩
  | some a =>
    cases hnc : a.isComputed with
    | true =>
      have e1 : ∀ v : Bytes, (Bind t c v).1 = t := fun v => by simp [Bind, hget, hnc]
      rw [e1 x, e1 y, e1 (x ++ y)]
      exact ⟨optSameUpToCuts_refl _, fun s => optSameUpToCuts_refl _⟩
    | false =>
      rw [Bind_of_not_computed t c x a hget hnc, Bind_of_not_computed t c (x ++ y) a hget hnc]
      simp only
      rw [Bind_of_not_computed _ c y { a with bindings := a.bindings ++ [x] }
        (by simp [mapGet_mapSet]) hnc]
      refine ⟨optSameUpToCuts_refl _, fun s => ?_⟩
      simp only [mapGet_mapSet]
      by_cases hcs : c = s
      · simp only [if_pos hcs]
        exact ⟨rfl, by simp, rfl, rfl⟩
      · simp only [if_neg hcs]
        exact optSameUpToCuts_refl _

/-! ## The claims -/

/-- C1 (post-computation lock) fails on the code: on the transcript of the single name
`"c0"`, over an appending hash with any digest function `D`, `ComputeChallenge("c0")`
succeeds, and the following `Bind("c0", x)` returns `nil` and appends `x` to the
bindings of `"c0"`, whose registry entry is still not marked computed. -/
theorem C1_bind_after_compute_succeeds (D : Bytes → Bytes) (x : Bytes) :
    (ComputeChallenge (appendHash D) (NewTranscript [] [nameC0]) nameC0).2
      = Except.ok (D nameC0) ∧
    (Bind (ComputeChallenge (appendHash D) (NewTranscript [] [nameC0]) nameC0).1 nameC0 x).2
      = none ∧
    mapGet
      (Bind (ComputeChallenge (appendHash D) (NewTranscript [] [nameC0]) nameC0).1
        nameC0 x).1.challenges nameC0
      = some { position := 0, bindings := [x], value := [], isComputed := false } := by
  refine ⟨rfl, rfl, rfl⟩

/-- C2 (idempotence of `ComputeChallenge`) fails on the code: on the transcript of
`"c0", "c1"` over an appending hash, computing `"c0"` and then `"c1"` succeeds, and the
immediately following second `ComputeChallenge("c1")` returns
`errPreviousChallengeNotComputed`. -/
theorem C2_second_compute_fails (D : Bytes → Bytes) :
    (run (appendHash D) (NewTranscript [] [nameC0, nameC1])
      [Call.compute nameC0, Call.compute nameC1, Call.compute nameC1]).2
      = [Outcome.computed (Except.ok (D nameC0)),
         Outcome.computed (Except.ok (D (nameC1 ++ D nameC0))),
         Outcome.computed (Except.error Error.errPreviousChallengeNotComputed)] := by
  rfl

/-- C3 (chained digest formula): over the appending hash with digest function `D`, on the
transcript of pairwise distinct names, for calls in which the challenges are computed in
declaration order and every `Bind` names a declared challenge that is not computed yet,
every `Bind` returns `nil` and the successive calls of `ComputeChallenge` return
`d_0 = D(n_0 ++ concat(B_0))` and `d_k = D(n_k ++ d_(k-1) ++ concat(B_k))`, where `B_k` are
the values that the calls bind to `n_k`, in call order. -/
theorem C3_chained_digests (D : Bytes → Bytes) (h0 : Bytes) (names : List Bytes)
    (calls : List Call) (hnd : names.Nodup) (hwo : wellOrdered names calls = true) :
    (run (appendHash D) (NewTranscript h0 names) calls).2
      = expectedOutcomes D names (fun c => boundValues c calls) calls 0 := by
  apply run_chain D names _ hnd calls 0 _ (by simpa using hwo)
  · intro k c hc
    have hmem : c ∈ names := List.mem_iff_getElem?.2 ⟨k, hc⟩
    cases hget : mapGet (NewTranscript h0 names).challenges c with
    | none => exact absurd hmem ((NewTranscript_get_none_iff h0 names c).1 hget)
    | some ch =>
      obtain ⟨p, hp, hch⟩ := NewTranscript_get h0 names c ch hget
      have hpk : p = k := nodup_index_unique hnd hp hc
      subst hpk
      subst hch
      exact ⟨_, rfl, rfl, rfl, fun _ => by simp⟩
  · intro j' hj'
    omega

/-- Witness of C3 on the names `"c0", "c1"`, with the absorbed bytes as digest. -/
theorem C3_chained_digests_witness :
    [nameC0, nameC1].Nodup ∧ wellOrdered [nameC0, nameC1] sampleCalls = true ∧
    (run (appendHash id) (NewTranscript [] [nameC0, nameC1]) sampleCalls).2
      = [Outcome.bound none, Outcome.bound none,
         Outcome.computed (Except.ok (nameC0 ++ [2])), Outcome.bound none,
         Outcome.computed (Except.ok (nameC1 ++ (nameC0 ++ [2]) ++ [1, 3]))] :=
  ⟨by decide, rfl,
    (C3_chained_digests id [] [nameC0, nameC1] sampleCalls (by decide) rfl).trans rfl⟩

/-- C4 (first challenge, end to end): over the appending hash with digest function `D`,
on a fresh transcript whose registry holds the name `c` at position 0, `Bind(c, v)` returns
`nil` for every `v`, and `ComputeChallenge(c)` then returns `D(c ++ v)`, whatever the hash
had absorbed before. -/
theorem C4_first_challenge (D : Bytes → Bytes) (h0 : Bytes) (names : List Bytes) (c v : Bytes)
    (ch : challenge) (hget : mapGet (NewTranscript h0 names).challenges c = some ch)
    (hpos : ch.position = 0) :
    (Bind (NewTranscript h0 names) c v).2 = none ∧
    (ComputeChallenge (appendHash D) (Bind (NewTranscript h0 names) c v).1 c).2
      = Except.ok (D (c ++ v)) := by
  obtain ⟨p, _, hch⟩ := NewTranscript_get h0 names c ch hget
  have hnc : ch.isComputed = false := by rw [hch]
  have hb : ch.bindings = [] := by rw [hch]
  rw [Bind_of_not_computed _ c v ch hget hnc]
  refine ⟨rfl, ?_⟩
  rw [ComputeChallenge_appendHash_first D _ c { ch with bindings := ch.bindings ++ [v] }
    (by simp [mapGet_mapSet]) hnc hpos]
  simp [hb]

/-- Witness of C4: the name `"c0"` and 32 zero bytes. -/
theorem C4_first_challenge_witness :
    mapGet (NewTranscript ([] : Bytes) [nameC0]).challenges nameC0
      = some { position := 0, bindings := [], value := [], isComputed := false } ∧
    (Bind (NewTranscript ([] : Bytes) [nameC0]) nameC0 (List.replicate 32 0)).2 = none ∧
    (ComputeChallenge (appendHash id)
      (Bind (NewTranscript ([] : Bytes) [nameC0]) nameC0 (List.replicate 32 0)).1 nameC0).2
      = Except.ok (nameC0 ++ List.replicate 32 0) :=
  ⟨rfl, C4_first_challenge id [] [nameC0] nameC0 (List.replicate 32 0)
    { position := 0, bindings := [], value := [], isComputed := false } rfl rfl⟩

/-- C5 (ordering enforcement): with a hash whose `Write` does not fail, on the transcript
of pairwise distinct names and after any sequence of calls, `ComputeChallenge` on the name
at index `k ≥ 1` returns `errPreviousChallengeNotComputed` whenever the most recent
successful `ComputeChallenge` was not for the name at index `k - 1` (or there was none). -/
theorem C5_ordering_enforced {σ : Type} (H : Hash σ)
    (hw : ∀ (s : σ) (b : Bytes), (H.Write s b).2 = none) (h0 : σ) (names : List Bytes)
    (hnd : names.Nodup) (calls : List Call) (k : Nat) (c : Bytes) (hk : 1 ≤ k)
    (hc : names[k]? = some c)
    (hlast : lastComputedFrom none calls (run H (NewTranscript h0 names) calls).2
      ≠ names[k - 1]?) :
    (ComputeChallenge H (run H (NewTranscript h0 names) calls).1 c).2
      = Except.error Error.errPreviousChallengeNotComputed := by
  obtain ⟨hreg, hprev⟩ := run_inv H names calls (NewTranscript h0 names) none
    (NewTranscript_registryOK h0 names) (fun p hp => Option.noConfusion hp)
  have hmem : c ∈ names := List.mem_iff_getElem?.2 ⟨k, hc⟩
  cases hget : mapGet (run H (NewTranscript h0 names) calls).1.challenges c with
  | none =>
    exact absurd hmem
      ((NewTranscript_get_none_iff h0 names c).1 ((run_get_none_iff H c calls _).1 hget))
  | some ch =>
    obtain ⟨hnc, p, hp, hn⟩ := hreg c ch hget
    have hpk : p = k := nodup_index_unique hnd hn hc
    subst hpk
    apply ComputeChallenge_previous_missing H hw _ c ch hget hnc
    · rw [hp]; exact_mod_cast (by omega : p ≠ 0)
    · intro q hq hqpos
      obtain ⟨r, c', hr, hn', hacc⟩ := hprev q hq
      apply hlast
      rw [hacc, ← hn']
      have : r = p - 1 := by
        have : (r : Int) = (p : Int) - 1 := by rw [← hr, hqpos, hp]
        omega
      rw [this]

/-- Witness of C5: on `"c0", "c1"`, once both are computed the last computed name is
`"c1"`, and computing `"c1"` is refused. -/
theorem C5_ordering_enforced_witness :
    [nameC0, nameC1].Nodup ∧
    lastComputedFrom none [Call.compute nameC0, Call.compute nameC1]
      (run (appendHash id) (NewTranscript [] [nameC0, nameC1])
        [Call.compute nameC0, Call.compute nameC1]).2 = some nameC1 ∧
    (ComputeChallenge (appendHash id)
      (run (appendHash id) (NewTranscript [] [nameC0, nameC1])
        [Call.compute nameC0, Call.compute nameC1]).1 nameC1).2
      = Except.error Error.errPreviousChallengeNotComputed :=
  ⟨by decide, rfl,
    C5_ordering_enforced (appendHash id) (fun _ _ => rfl) [] [nameC0, nameC1] (by decide)
      [Call.compute nameC0, Call.compute nameC1] 1 nameC1 (le_refl 1) rfl (by decide)⟩

/-- C6 (atomicity on error): whenever `Bind` or `ComputeChallenge` returns an error, on
any transcript state and with any hash, the registry and the `previous` back-reference
after the call are those before the call. -/
theorem C6_error_leaves_registry_and_previous {σ : Type} (H : Hash σ) (t : Transcript σ)
    (c x : Bytes) :
    (∀ e : Error, (Bind t c x).2 = some e →
      (Bind t c x).1.challenges = t.challenges ∧ (Bind t c x).1.previous = t.previous) ∧
    (∀ e : Error, (ComputeChallenge H t c).2 = Except.error e →
      (ComputeChallenge H t c).1.challenges = t.challenges ∧
      (ComputeChallenge H t c).1.previous = t.previous) := by
  refine ⟨fun e he => ?_, fun e he => ?_⟩
  · rw [Bind_error_state t c x e he]
    exact ⟨rfl, rfl⟩
  · exact ⟨ComputeChallenge_challenges H t c, ComputeChallenge_error_previous H t c e he⟩

/-- Witness of C6: a `Bind` to an undeclared name, and a `ComputeChallenge` whose hash
fails to write. -/
theorem C6_error_leaves_registry_and_previous_witness :
    (Bind (NewTranscript () [nameC0]) nameZ []).2 = some Error.errChallengeNotFound ∧
    (Bind (NewTranscript () [nameC0]) nameZ []).1.challenges
      = (NewTranscript () [nameC0]).challenges ∧
    (ComputeChallenge failingHash (NewTranscript () [nameC0]) nameC0).2
      = Except.error (Error.hashError 1) ∧
    (ComputeChallenge failingHash (NewTranscript () [nameC0]) nameC0).1.previous
      = (NewTranscript () [nameC0]).previous :=
  ⟨rfl,
    ((C6_error_leaves_registry_and_previous failingHash (NewTranscript () [nameC0]) nameZ
      []).1 _ rfl).1,
    rfl,
    ((C6_error_leaves_registry_and_previous failingHash (NewTranscript () [nameC0]) nameC0
      []).2 _ rfl).2⟩

/-- C7 (unknown name): on the transcript of `names`, after any sequence of calls, for a
name `s` that is not among `names`, `Bind(s, x)` returns `errChallengeNotFound` and
`ComputeChallenge(s)` returns `errChallengeNotFound`, both leaving the transcript and the
state of the hash as they were; with a call-counting hash the counter is the same before
and after `ComputeChallenge(s)`. -/
theorem C7_unknown_name {σ : Type} (H : Hash σ) (h0 : σ) (names : List Bytes)
    (calls : List Call) (s x : Bytes) (hs : s ∉ names) :
    Bind (run H (NewTranscript h0 names) calls).1 s x
      = ((run H (NewTranscript h0 names) calls).1, some Error.errChallengeNotFound) ∧
    ComputeChallenge H (run H (NewTranscript h0 names) calls).1 s
      = ((run H (NewTranscript h0 names) calls).1, Except.error Error.errChallengeNotFound) ∧
    (∀ n : Nat,
      (ComputeChallenge (countingHash H)
        (run (countingHash H) (NewTranscript (h0, n) names) calls).1 s).1.h.2
        = (run (countingHash H) (NewTranscript (h0, n) names) calls).1.h.2) := by
  have key : ∀ {τ : Type} (K : Hash τ) (k0 : τ),
      mapGet (run K (NewTranscript k0 names) calls).1.challenges s = none := fun K k0 =>
    (run_get_none_iff K s calls _).2 ((NewTranscript_get_none_iff k0 names s).2 hs)
  refine ⟨Bind_of_mapGet_none _ s x (key H h0), ComputeChallenge_of_mapGet_none H _ s (key H h0),
    fun n => ?_⟩
  rw [ComputeChallenge_of_mapGet_none _ _ s (key (countingHash H) (h0, n))]

/-- Witness of C7: the name `"zzz"` on the transcript of `"c0"`. -/
theorem C7_unknown_name_witness :
    nameZ ∉ [nameC0] ∧
    (Bind (NewTranscript ([] : Bytes) [nameC0]) nameZ [1]).2
      = some Error.errChallengeNotFound ∧
    (ComputeChallenge (appendHash id) (NewTranscript ([] : Bytes) [nameC0]) nameZ).2
      = Except.error Error.errChallengeNotFound :=
  ⟨by decide,
    congrArg Prod.snd
      (C7_unknown_name (appendHash id) [] [nameC0] [] nameZ [1] (by decide)).1,
    congrArg Prod.snd
      (C7_unknown_name (appendHash id) [] [nameC0] [] nameZ [1] (by decide)).2.1⟩

/-- C8 (`Bind` appends and changes nothing else): on a declared name whose registry entry
is not marked computed, `Bind` returns `nil`; afterwards the entry is the old one with the
value added at the end of its bindings, every other name reads as before, the keys of the
registry, `previous` and the hash state are unchanged; and successive binds of the values
`vs` all return `nil` and leave the bindings equal to the old ones followed by `vs`. -/
theorem C8_bind_appends_only {σ : Type} (H : Hash σ) (t : Transcript σ) (c v : Bytes)
    (ch : challenge) (hget : mapGet t.challenges c = some ch) (hnc : ch.isComputed = false) :
    (Bind t c v).2 = none ∧
    mapGet (Bind t c v).1.challenges c = some { ch with bindings := ch.bindings ++ [v] } ∧
    (∀ c' : Bytes, c' ≠ c → mapGet (Bind t c v).1.challenges c' = mapGet t.challenges c') ∧
    (Bind t c v).1.challenges.map Prod.fst = t.challenges.map Prod.fst ∧
    (Bind t c v).1.previous = t.previous ∧
    (Bind t c v).1.h = t.h ∧
    (∀ vs : List Bytes,
      (run H t (vs.map (Call.bind c))).2 = vs.map (fun _ => Outcome.bound none) ∧
      mapGet (run H t (vs.map (Call.bind c))).1.challenges c
        = some { ch with bindings := ch.bindings ++ vs }) := by
  rw [Bind_of_not_computed t c v ch hget hnc]
  refine ⟨rfl, ?_, ?_, ?_, rfl, rfl, fun vs => run_binds H c vs t ch hget hnc⟩
  · simp [mapGet_mapSet]
  · intro c' hc'
    simp [mapGet_mapSet, Ne.symm hc']
  · exact mapSet_keys _ _ _ _ hget

/-- Witness of C8: binding the empty value to `"c0"` on a fresh transcript. -/
theorem C8_bind_appends_only_witness :
    mapGet (NewTranscript ([] : Bytes) [nameC0]).challenges nameC0
      = some { position := 0, bindings := [], value := [], isComputed := false } ∧
    (Bind (NewTranscript ([] : Bytes) [nameC0]) nameC0 []).2 = none ∧
    mapGet (Bind (NewTranscript ([] : Bytes) [nameC0]) nameC0 []).1.challenges nameC0
      = some { position := 0, bindings := [[]], value := [], isComputed := false } :=
  ⟨rfl,
    (C8_bind_appends_only (appendHash id) (NewTranscript ([] : Bytes) [nameC0]) nameC0 []
      { position := 0, bindings := [], value := [], isComputed := false } rfl rfl).1,
    (C8_bind_appends_only (appendHash id) (NewTranscript ([] : Bytes) [nameC0]) nameC0 []
      { position := 0, bindings := [], value := [], isComputed := false } rfl rfl).2.1⟩

/-- C9 (computed values never change) fails on the code: on the transcript of the single
name `"c0"`, over the appending hash whose digest is the absorbed bytes themselves,
`ComputeChallenge("c0")` returns the bytes of `"c0"`, the later `Bind("c0", [1])` is
accepted, and the next `ComputeChallenge("c0")` succeeds with a different digest. -/
theorem C9_digest_changes_after_bind :
    (run (appendHash id) (NewTranscript [] [nameC0])
      [Call.compute nameC0, Call.bind nameC0 [1], Call.compute nameC0]).2
      = [Outcome.computed (Except.ok nameC0), Outcome.bound none,
         Outcome.computed (Except.ok (nameC0 ++ [1]))] ∧
    nameC0 ≠ nameC0 ++ [1] := by
  refine ⟨rfl, by decide⟩

/-- C10 (no recomputation on a repeated call) fails on the code: on the transcript of the
single name `"c0"`, over a call-counting appending hash whose counter starts at `n`, the
first `ComputeChallenge("c0")` leaves the counter at `n + 4` and the second one, which
returns the same digest, leaves it at `n + 8`: it called `Reset`, `Write`, `Sum` and
`Reset` again. -/
theorem C10_second_compute_calls_hash (D : Bytes → Bytes) (n : Nat) :
    (ComputeChallenge (countingHash (appendHash D)) (NewTranscript ([], n) [nameC0])
      nameC0).1.h.2 = n + 4 ∧
    (ComputeChallenge (countingHash (appendHash D))
      (ComputeChallenge (countingHash (appendHash D)) (NewTranscript ([], n) [nameC0])
        nameC0).1 nameC0).2 = Except.ok (D nameC0) ∧
    (ComputeChallenge (countingHash (appendHash D))
      (ComputeChallenge (countingHash (appendHash D)) (NewTranscript ([], n) [nameC0])
        nameC0).1 nameC0).1.h.2 = n + 8 := by
  refine ⟨rfl, rfl, rfl⟩

/-- C11 (construction): for pairwise distinct names, the registry of `NewTranscript` has
exactly the given names as keys, the name at index `i` maps to the challenge with position
`i`, no bindings, no value and `isComputed = false`, a name that is not in the list has no
entry, `previous` is `nil` and the hash is the given one. -/
theorem C11_construction {σ : Type} (h : σ) (names : List Bytes) (hnd : names.Nodup) :
    (NewTranscript h names).challenges.map Prod.fst = names ∧
    (∀ (i : Nat) (c : Bytes), names[i]? = some c →
      mapGet (NewTranscript h names).challenges c
        = some { position := (i : Int), bindings := [], value := [], isComputed := false }) ∧
    (∀ c : Bytes, c ∉ names → mapGet (NewTranscript h names).challenges c = none) ∧
    (NewTranscript h names).previous = none ∧
    (NewTranscript h names).h = h := by
  refine ⟨?_, ?_, fun c hc => (NewTranscript_get_none_iff h names c).2 hc, rfl, rfl⟩
  · show (NewTranscript.loop names 0 []).map Prod.fst = names
    rw [keys_loop_of_nodup names 0 [] (by simpa using hnd)]
    simp
  · intro i c hc
    obtain ⟨p, hp, _, hget⟩ := NewTranscript_get_last h names c (List.mem_iff_getElem?.2 ⟨i, hc⟩)
    rw [hget, nodup_index_unique hnd hp hc]

/-- Witness of C11: the names `"c0", "c1"`. -/
theorem C11_construction_witness :
    [nameC0, nameC1].Nodup ∧
    (NewTranscript () [nameC0, nameC1]).challenges.map Prod.fst = [nameC0, nameC1] ∧
    mapGet (NewTranscript () [nameC0, nameC1]).challenges nameC1
      = some { position := 1, bindings := [], value := [], isComputed := false } :=
  ⟨by decide, (C11_construction () [nameC0, nameC1] (by decide)).1,
    (C11_construction () [nameC0, nameC1] (by decide)).2.1 1 nameC1 rfl⟩

/-- C12 (domain separation): over an appending hash whose digest function is injective,
for names `a ≠ b`, a fresh transcript that holds `a` at position 0 and a fresh transcript
that holds `b` at position 0, to which the same values `vs` are bound in the same order
(none, when `vs` is empty), return different digests from `ComputeChallenge(a)` and
`ComputeChallenge(b)`. -/
theorem C12_domain_separation (D : Bytes → Bytes) (hD : Function.Injective D) (a b : Bytes)
    (hab : a ≠ b) (ha0 hb0 : Bytes) (namesA namesB : List Bytes) (cha chb : challenge)
    (hgetA : mapGet (NewTranscript ha0 namesA).challenges a = some cha)
    (hposA : cha.position = 0)
    (hgetB : mapGet (NewTranscript hb0 namesB).challenges b = some chb)
    (hposB : chb.position = 0) (vs : List Bytes) :
    ∃ da db : Bytes,
      (ComputeChallenge (appendHash D)
        (run (appendHash D) (NewTranscript ha0 namesA) (vs.map (Call.bind a))).1 a).2
        = Except.ok da ∧
      (ComputeChallenge (appendHash D)
        (run (appendHash D) (NewTranscript hb0 namesB) (vs.map (Call.bind b))).1 b).2
        = Except.ok db ∧
      da ≠ db := by
  have one : ∀ (h0 : Bytes) (names : List Bytes) (c : Bytes) (ch : challenge),
      mapGet (NewTranscript h0 names).challenges c = some ch → ch.position = 0 →
      (ComputeChallenge (appendHash D)
        (run (appendHash D) (NewTranscript h0 names) (vs.map (Call.bind c))).1 c).2
        = Except.ok (D (c ++ vs.flatten)) := by
    intro h0 names c ch hget hpos
    obtain ⟨p, _, hch⟩ := NewTranscript_get h0 names c ch hget
    have hnc : ch.isComputed = false := by rw [hch]
    have hb : ch.bindings = [] := by rw [hch]
    obtain ⟨_, hget'⟩ := run_binds (appendHash D) c vs _ ch hget hnc
    rw [ComputeChallenge_appendHash_first D _ c _ hget' hnc hpos]
    simp [hb]
  refine ⟨_, _, one ha0 namesA a cha hgetA hposA, one hb0 namesB b chb hgetB hposB, ?_⟩
  intro h
  have h1 := hD h
  exact hab (List.append_cancel_right h1)

/-- Witness of C12: the names `"c0"` and `"c1"` with no bindings, the absorbed bytes being
the digest. -/
theorem C12_domain_separation_witness :
    Function.Injective (id : Bytes → Bytes) ∧ nameC0 ≠ nameC1 ∧
    ∃ da db : Bytes,
      (ComputeChallenge (appendHash id) (NewTranscript ([] : Bytes) [nameC0]) nameC0).2
        = Except.ok da ∧
      (ComputeChallenge (appendHash id) (NewTranscript ([] : Bytes) [nameC1]) nameC1).2
        = Except.ok db ∧
      da ≠ db :=
  ⟨Function.injective_id, by decide,
    C12_domain_separation id Function.injective_id nameC0 nameC1 (by decide) [] [] [nameC0]
      [nameC1] { position := 0, bindings := [], value := [], isComputed := false }
      { position := 0, bindings := [], value := [], isComputed := false } rfl rfl rfl rfl []⟩

/-- C13 as stated fails on the code: on `"c0", "c1"`, over the appending hash whose digest
is the absorbed bytes, binding `[1]` and then `[2]` to `"c0"` and binding `[1, 2]` to `"c0"`
are different sequences of values, all else is the same, and the digest of `"c1"` is the
same in both transcripts.  It also fails when the values are bound to `"c0"` after `"c0"` is
computed: binding `[1]` or `[2]` then gives the same digest of `"c1"`, since a `Bind` that
comes after the `ComputeChallenge` of its name is accepted and changes no digest that is
returned later in declaration order. -/
theorem C13_counterexample :
    Function.Injective (id : Bytes → Bytes) ∧ [nameC0, nameC1].Nodup ∧
    wellOrdered [nameC0, nameC1] splitCalls = true ∧
    wellOrdered [nameC0, nameC1] joinedCalls = true ∧
    computeCount splitCalls = 2 ∧ computeCount joinedCalls = 2 ∧
    boundValues nameC0 splitCalls ≠ boundValues nameC0 joinedCalls ∧
    boundValues nameC1 splitCalls = boundValues nameC1 joinedCalls ∧
    (computedDigests (run (appendHash id) (NewTranscript [] [nameC0, nameC1]) splitCalls).2)[1]?
      = some (nameC1 ++ (nameC0 ++ [1, 2])) ∧
    (computedDigests (run (appendHash id) (NewTranscript [] [nameC0, nameC1]) joinedCalls).2)[1]?
      = some (nameC1 ++ (nameC0 ++ [1, 2])) ∧
    computeCount lateCallsOne = 2 ∧ computeCount lateCallsTwo = 2 ∧
    (boundValues nameC0 lateCallsOne).flatten ≠ (boundValues nameC0 lateCallsTwo).flatten ∧
    boundValues nameC1 lateCallsOne = boundValues nameC1 lateCallsTwo ∧
    (run (appendHash id) (NewTranscript [] [nameC0, nameC1]) lateCallsOne).2
      = [Outcome.computed (Except.ok nameC0), Outcome.bound none,
         Outcome.computed (Except.ok (nameC1 ++ nameC0))] ∧
    (run (appendHash id) (NewTranscript [] [nameC0, nameC1]) lateCallsTwo).2
      = [Outcome.computed (Except.ok nameC0), Outcome.bound none,
         Outcome.computed (Except.ok (nameC1 ++ nameC0))] := by
  refine ⟨Function.injective_id, by decide, rfl, rfl, rfl, rfl, by decide, rfl, rfl, rfl,
    rfl, rfl, by decide, rfl, rfl, rfl⟩

/-- C13 amended (chaining avalanche): over an appending hash whose digest function is
injective, on two transcripts of the same pairwise distinct names, in each of which the
challenges are all computed, in declaration order, and every `Bind` names a declared
challenge that is not computed yet (`wellOrdered`), and which receive the same binds on
every challenge but the first one: if the concatenations of the values bound to the first
challenge differ, then the digests of the challenge at every position `k ≥ 1` differ. -/
theorem C13_chaining_avalanche (D : Bytes → Bytes) (hD : Function.Injective D)
    (names : List Bytes) (hnd : names.Nodup) (h1 h2 : Bytes) (calls1 calls2 : List Call)
    (hwo1 : wellOrdered names calls1 = true) (hwo2 : wellOrdered names calls2 = true)
    (hall1 : computeCount calls1 = names.length) (hall2 : computeCount calls2 = names.length)
    (hsame : ∀ c : Bytes, c ≠ names.getD 0 [] → boundValues c calls1 = boundValues c calls2)
    (hdiff : (boundValues (names.getD 0 []) calls1).flatten
      ≠ (boundValues (names.getD 0 []) calls2).flatten)
    (k : Nat) (_hk1 : 1 ≤ k) (hk : k < names.length) :
    ∃ d1 d2 : Bytes,
      (computedDigests (run (appendHash D) (NewTranscript h1 names) calls1).2)[k]? = some d1 ∧
      (computedDigests (run (appendHash D) (NewTranscript h2 names) calls2).2)[k]? = some d2 ∧
      d1 ≠ d2 := by
  refine ⟨chainDigest D names (fun c => boundValues c calls1) k,
    chainDigest D names (fun c => boundValues c calls2) k, ?_, ?_, ?_⟩
  · rw [run_eq_expectedOutcomes D h1 names calls1 hnd hwo1,
      computedDigests_expectedOutcomes D names _ calls1 0 k (by omega), Nat.zero_add]
  · rw [run_eq_expectedOutcomes D h2 names calls2 hnd hwo2,
      computedDigests_expectedOutcomes D names _ calls2 0 k (by omega), Nat.zero_add]
  · exact chainDigest_ne D hD names hnd _ _ hsame hdiff k hk


/-- Witness of C13 amended: binding `[1]` or `[1, 2]` to `"c0"` gives different digests for
`"c1"`. -/
theorem C13_chaining_avalanche_witness :
    (boundValues nameC0 shortCalls).flatten ≠ (boundValues nameC0 joinedCalls).flatten ∧
    ∃ d1 d2 : Bytes,
      (computedDigests (run (appendHash id) (NewTranscript [] [nameC0, nameC1]) shortCalls).2)[1]?
        = some d1 ∧
      (computedDigests (run (appendHash id) (NewTranscript [] [nameC0, nameC1]) joinedCalls).2)[1]?
        = some d2 ∧
      d1 ≠ d2 :=
  ⟨by decide,
    C13_chaining_avalanche id Function.injective_id [nameC0, nameC1] (by decide) [] []
      shortCalls joinedCalls rfl rfl rfl rfl
      (fun c hc => by
        have hne : ¬ nameC0 = c := fun h => hc h.symm
        simp [shortCalls, joinedCalls, boundValues, hne])
      (by decide) 1 (le_refl 1) (by decide)⟩

/-- C14 (hash failure propagation): over a logging hash, when a `Write` that
`ComputeChallenge` makes returns the error `e`, `ComputeChallenge` returns that same `e`,
and the calls it made on the hash end with this `Write` followed by the deferred `Reset`
alone: no `Write` and no `Sum` comes after the failure, and no `Write` failed before. -/
theorem C14_hash_failure_propagates {σ : Type} (H : Hash σ)
    (t : Transcript (σ × List HashCall)) (c : Bytes) (L : List HashCall)
    (hL : (ComputeChallenge (loggingHash H) t c).1.h.2 = t.h.2 ++ L) (b : Bytes) (e : Error)
    (hfail : HashCall.write b (some e) ∈ L) :
    (ComputeChallenge (loggingHash H) t c).2 = Except.error e ∧
    ∃ pre : List HashCall, L = pre ++ [HashCall.write b (some e), HashCall.reset] ∧
      noFailedWrite pre := by
  obtain ⟨L', hL', hcase⟩ := ComputeChallenge_log H t c
  have hLL : L = L' := List.append_cancel_left (hL.symm.trans hL')
  subst hLL
  rcases hcase with hnf | ⟨pre, b', e', hnf, hshape, hres⟩
  · exact absurd hfail (hnf b e)
  · rw [hshape] at hfail
    simp only [List.mem_append, List.mem_cons, List.mem_singleton] at hfail
    rcases hfail with h1 | h1 | h1 | h1
    · exact absurd h1 (hnf b e)
    · cases h1
      exact ⟨hres, pre, hshape, hnf⟩
    · cases h1
    · simp at h1

/-- Witness of C14: on the transcript of `"c0"` with the binding `[5]`, over a hash whose
second `Write` fails, the `Write` of the name succeeds, the `Write` of the binding fails,
and only the deferred `Reset` follows. -/
theorem C14_hash_failure_propagates_witness :
    (ComputeChallenge (loggingHash failSecondWrite)
      (Bind (NewTranscript ((0 : Nat), ([] : List HashCall)) [nameC0]) nameC0 [5]).1
      nameC0).1.h.2
      = [HashCall.reset, HashCall.write nameC0 none,
         HashCall.write [5] (some (Error.hashError 2)), HashCall.reset] ∧
    (ComputeChallenge (loggingHash failSecondWrite)
      (Bind (NewTranscript ((0 : Nat), ([] : List HashCall)) [nameC0]) nameC0 [5]).1
      nameC0).2 = Except.error (Error.hashError 2) :=
  ⟨rfl,
    (C14_hash_failure_propagates failSecondWrite
      (Bind (NewTranscript ((0 : Nat), ([] : List HashCall)) [nameC0]) nameC0 [5]).1 nameC0
      [HashCall.reset, HashCall.write nameC0 none,
        HashCall.write [5] (some (Error.hashError 2)), HashCall.reset]
      rfl [5] (Error.hashError 2) (by decide)).1⟩

/-- C15 as stated fails on the code: the hash with a budget of calls of `Write` returns as
`Sum` the bytes written since the last `Reset`, which empties them, and a `Write` that
succeeds appends.  Yet on the transcript of `"c0"`, `ComputeChallenge("c0")` returns a digest
when the hash starts with a budget of one and nothing absorbed, and the error of `Write`
when the hash starts after it has absorbed `[7]`, its budget used up: an error of `Write`
is returned as it is, and nothing in the condition on `Sum` makes it the same on both
sides. -/
theorem C15_counterexample :
    (∀ s : Bytes × Nat, (budgetHash.Reset s).1 = []) ∧
    (∀ (s : Bytes × Nat) (b : Bytes), (budgetHash.Write s b).2 = none →
      (budgetHash.Write s b).1.1 = s.1 ++ b) ∧
    (∀ s : Bytes × Nat, (budgetHash.Sum s).1 = s.1) ∧
    (budgetHash.Write ([], 1) [7]).1 = ([7], 0) ∧
    (run budgetHash (NewTranscript (([], 1) : Bytes × Nat) [nameC0]) [Call.compute nameC0]).2
      = [Outcome.computed (Except.ok nameC0)] ∧
    (run budgetHash (NewTranscript (budgetHash.Write ([], 1) [7]).1 [nameC0])
      [Call.compute nameC0]).2
      = [Outcome.computed (Except.error (Error.hashError 9))] := by
  refine ⟨fun _ => rfl, ?_, fun _ => rfl, rfl, rfl, rfl⟩
  intro s b h
  by_cases hs : s.2 = 0
  · simp [budgetHash, hs] at h
  · simp [budgetHash, hs]

/-- C15 amended (determinism independent of the prior state of the hash): for a hash of
which not only the digest of `Sum` but also the error of `Write` is a function of the bytes
written since the last `Reset`.  Let `R` relate the states of the hash to which the same
bytes were written since their last `Reset`, so that any two states are related after a
`Reset`, related states stay related after a `Write` of the same bytes and return the same
error, and `Sum` returns the same digest on related states.  Then two transcripts built
from the same names, whatever the states `h0` and `h0'` of their hashes, return the same
results, digests and errors, for every call of the same sequence of calls. -/
theorem C15_determinism {σ : Type} (H : Hash σ) (R : σ → σ → Prop)
    (hR : ∀ s s' : σ, R (H.Reset s) (H.Reset s'))
    (hW : ∀ (s s' : σ) (b : Bytes), R s s' →
      R (H.Write s b).1 (H.Write s' b).1 ∧ (H.Write s b).2 = (H.Write s' b).2)
    (hS : ∀ s s' : σ, R s s' → (H.Sum s).1 = (H.Sum s').1)
    (names : List Bytes) (h0 h0' : σ) (calls : List Call) :
    (run H (NewTranscript h0 names) calls).2 = (run H (NewTranscript h0' names) calls).2 :=
  run_related H R hR hW hS calls _ _ rfl rfl

/-- Witness of C15 amended: the appending hash, with equality of the absorbed bytes as relation,
started on nothing and on the bytes `[7, 7]`. -/
theorem C15_determinism_witness :
    (run (appendHash id) (NewTranscript ([] : Bytes) [nameC0, nameC1]) sampleCalls).2
      = (run (appendHash id) (NewTranscript ([7, 7] : Bytes) [nameC0, nameC1]) sampleCalls).2 :=
  C15_determinism (appendHash id) (fun s s' => s = s') (fun _ _ => rfl)
    (fun s s' b h => ⟨by rw [h], rfl⟩) (fun s s' h => by rw [h]) [nameC0, nameC1] [] [7, 7]
    sampleCalls

/-- C16 (duplicate names collapse, last declaration wins): for every list of names, the
registry of `NewTranscript` has one entry for each distinct name of the list and no other,
the entry of a name is fresh with the index of the last occurrence of the name as position,
and when a name is repeated some entry has a position that is not below the number of
entries, so that the positions are not `0..m-1`. -/
theorem C16_duplicates_last_wins {σ : Type} (h : σ) (names : List Bytes) :
    ((NewTranscript h names).challenges.map Prod.fst).Nodup ∧
    (∀ s : Bytes, s ∈ (NewTranscript h names).challenges.map Prod.fst ↔ s ∈ names) ∧
    (∀ s : Bytes, s ∈ names →
      ∃ p : Nat, names[p]? = some s ∧ (∀ r : Nat, p < r → names[r]? ≠ some s) ∧
        mapGet (NewTranscript h names).challenges s
          = some { position := (p : Int), bindings := [], value := [], isComputed := false }) ∧
    (¬ names.Nodup →
      ∃ (s : Bytes) (ch : challenge), mapGet (NewTranscript h names).challenges s = some ch ∧
        (((NewTranscript h names).challenges.map Prod.fst).length : Int) ≤ ch.position) := by
  have hkeys : ((NewTranscript h names).challenges.map Prod.fst).Nodup :=
    keys_loop_nodup names 0 [] (by simp)
  have hmem : ∀ s : Bytes,
      s ∈ (NewTranscript h names).challenges.map Prod.fst ↔ s ∈ names := by
    intro s
    rw [mem_keys_iff, Ne, NewTranscript_get_none_iff, not_not]
  refine ⟨hkeys, hmem, fun s hs => NewTranscript_get_last h names s hs, fun hn => ?_⟩
  have hlt := keys_length_lt_of_not_nodup hkeys (fun s hs => (hmem s).1 hs) hn
  have hpos : 0 < names.length := by omega
  obtain ⟨s, hlastget⟩ : ∃ s, names[names.length - 1]? = some s := by
    cases hx : names[names.length - 1]? with
    | none => rw [List.getElem?_eq_none_iff] at hx; omega
    | some s => exact ⟨s, rfl⟩
  obtain ⟨p, hp, hlast, hget⟩ := NewTranscript_get_last h names s
    (List.mem_iff_getElem?.2 ⟨_, hlastget⟩)
  refine ⟨_, _, hget, ?_⟩
  have hple : names.length - 1 ≤ p := by
    by_contra hlt'
    exact hlast (names.length - 1) (by omega) hlastget
  show ((_ : Nat) : Int) ≤ (p : Int)
  exact_mod_cast (by omega : _ ≤ p)

/-- Witness of C16: in `"c0", "c1", "c0"` the entry of `"c0"` has position 2 and the
registry has two entries. -/
theorem C16_duplicates_last_wins_witness :
    ¬ repeatedNames.Nodup ∧
    (NewTranscript () repeatedNames).challenges.map Prod.fst = [nameC0, nameC1] ∧
    mapGet (NewTranscript () repeatedNames).challenges nameC0
      = some { position := 2, bindings := [], value := [], isComputed := false } ∧
    ∃ (s : Bytes) (ch : challenge),
      mapGet (NewTranscript () repeatedNames).challenges s = some ch ∧
        (((NewTranscript () repeatedNames).challenges.map Prod.fst).length : Int)
          ≤ ch.position :=
  ⟨by decide, rfl, rfl, (C16_duplicates_last_wins () repeatedNames).2.2.2 (by decide)⟩

/-- C17 (hash left clean): whenever `ComputeChallenge` is called on a name whose registry
entry is there and not marked computed, so that the call goes on to the hashing steps,
the state of the hash at the return is the one that a `Reset` has just produced, on
success and on every error path alike. -/
theorem C17_hash_left_reset {σ : Type} (H : Hash σ) (t : Transcript σ) (c : Bytes)
    (ch : challenge) (hget : mapGet t.challenges c = some ch) (hnc : ch.isComputed = false) :
    ∃ s : σ, (ComputeChallenge H t c).1.h = H.Reset s :=
  ComputeChallenge_h_reset H t c ch hget hnc

/-- Witness of C17: over an appending hash that had absorbed `[9]`, no absorbed byte is left
after `ComputeChallenge("c1")` on `"c0", "c1"`, which returns an error. -/
theorem C17_hash_left_reset_witness :
    mapGet (NewTranscript ([9] : Bytes) [nameC0, nameC1]).challenges nameC1
      = some { position := 1, bindings := [], value := [], isComputed := false } ∧
    (ComputeChallenge (appendHash id) (NewTranscript ([9] : Bytes) [nameC0, nameC1]) nameC1).2
      = Except.error Error.errPreviousChallengeNotComputed ∧
    (ComputeChallenge (appendHash id) (NewTranscript ([9] : Bytes) [nameC0, nameC1])
      nameC1).1.h = [] :=
  ⟨rfl, rfl,
    (C17_hash_left_reset (appendHash id) (NewTranscript ([9] : Bytes) [nameC0, nameC1]) nameC1
      { position := 1, bindings := [], value := [], isComputed := false } rfl rfl).elim
      fun _ hs => hs.trans rfl⟩

/-- C18 (registry entries are never marked computed): in every state reached from
`NewTranscript` by calls of `Bind` and `ComputeChallenge`, every registry entry has
`isComputed = false` and no value; `Bind` never returns `errChallengeAlreadyComputed`; and
`ComputeChallenge` on a declared name never returns the cached value without hashing, as a
call-counting hash shows: its counter grows at every such call. -/
theorem C18_registry_never_marked {σ : Type} (H : Hash σ) (h0 : σ) (names : List Bytes)
    (calls : List Call) :
    (∀ (c : Bytes) (ch : challenge),
      mapGet (run H (NewTranscript h0 names) calls).1.challenges c = some ch →
        ch.isComputed = false ∧ ch.value = []) ∧
    (∀ c x : Bytes, (Bind (run H (NewTranscript h0 names) calls).1 c x).2
      ≠ some Error.errChallengeAlreadyComputed) ∧
    (∀ (n : Nat) (c : Bytes),
      mapGet (run (countingHash H) (NewTranscript (h0, n) names) calls).1.challenges c ≠ none →
        (run (countingHash H) (NewTranscript (h0, n) names) calls).1.h.2
          < (ComputeChallenge (countingHash H)
              (run (countingHash H) (NewTranscript (h0, n) names) calls).1 c).1.h.2) := by
  have key : ∀ {τ : Type} (K : Hash τ) (k0 : τ),
      entriesOK (lastIndex names) (run K (NewTranscript k0 names) calls).1.challenges :=
    fun K k0 => run_entriesOK K _ calls _ (NewTranscript_entriesOK k0 names)
  refine ⟨fun c ch h => ⟨(key H h0 c ch h).1, (key H h0 c ch h).2.1⟩, fun c x => ?_,
    fun n c hc => ?_⟩
  · cases hget : mapGet (run H (NewTranscript h0 names) calls).1.challenges c with
    | none =>
      rw [Bind_of_mapGet_none _ c x hget]
      simp
    | some ch =>
      rw [Bind_of_not_computed _ c x ch hget (key H h0 c ch hget).1]
      simp
  · cases hget : mapGet (run (countingHash H) (NewTranscript (h0, n) names)
        calls).1.challenges c with
    | none => exact absurd hget hc
    | some ch =>
      exact ComputeChallenge_counter_lt H _ c ch hget (key (countingHash H) (h0, n) c ch hget).1

/-- Witness of C18: after `ComputeChallenge("c0")` has succeeded the entry of `"c0"` is
still unmarked. -/
theorem C18_registry_never_marked_witness :
    (ComputeChallenge (appendHash id) (NewTranscript ([] : Bytes) [nameC0]) nameC0).2
      = Except.ok nameC0 ∧
    mapGet (run (appendHash id) (NewTranscript ([] : Bytes) [nameC0])
      [Call.compute nameC0]).1.challenges nameC0
      = some { position := 0, bindings := [], value := [], isComputed := false } ∧
    ({ position := 0, bindings := [], value := [], isComputed := false } : challenge).isComputed
      = false :=
  ⟨rfl, rfl,
    ((C18_registry_never_marked (appendHash id) ([] : Bytes) [nameC0]
      [Call.compute nameC0]).1 nameC0 _ rfl).1⟩

/-- C19 (binding boundaries are not hashed): over an appending hash, from any transcript,
`Bind(c, x)` followed by `Bind(c, y)`, or the single `Bind(c, x ++ y)`, lead to the same
results of every later sequence of calls, and so to the same digest of `c`. -/
theorem C19_binding_boundaries (D : Bytes → Bytes) (t : Transcript Bytes) (c x y : Bytes)
    (calls : List Call) :
    (run (appendHash D) (Bind (Bind t c x).1 c y).1 calls).2
      = (run (appendHash D) (Bind t c (x ++ y)).1 calls).2 ∧
    (ComputeChallenge (appendHash D) (Bind (Bind t c x).1 c y).1 c).2
      = (ComputeChallenge (appendHash D) (Bind t c (x ++ y)).1 c).2 :=
  ⟨run_sameUpToCuts D calls _ _ (Bind_twice_sameUpToCuts t c x y),
    (ComputeChallenge_sameUpToCuts D _ _ c (Bind_twice_sameUpToCuts t c x y)).1⟩

/-- C20 (a repeated first name makes the transcript unusable): when the name at index 0
stands again later in the list, then in every state reached from `NewTranscript` no
registry entry has position 0, `previous` is `nil`, and every `ComputeChallenge` returns
an error: `errChallengeNotFound` for a name that is not declared, and
`errPreviousChallengeNotComputed` for a declared name whenever the `Write` of the name
does not fail. -/
theorem C20_repeated_first_name {σ : Type} (H : Hash σ) (h0 : σ) (n0 : Bytes)
    (rest : List Bytes) (hrep : n0 ∈ rest) (calls : List Call) :
    (∀ (c : Bytes) (ch : challenge),
      mapGet (run H (NewTranscript h0 (n0 :: rest)) calls).1.challenges c = some ch →
        ch.position ≠ 0) ∧
    (run H (NewTranscript h0 (n0 :: rest)) calls).1.previous = none ∧
    (∀ c : Bytes, ∃ e : Error,
      (ComputeChallenge H (run H (NewTranscript h0 (n0 :: rest)) calls).1 c).2
        = Except.error e ∧
      (c ∉ n0 :: rest → e = Error.errChallengeNotFound) ∧
      (c ∈ n0 :: rest →
        (H.Write (H.Reset (run H (NewTranscript h0 (n0 :: rest)) calls).1.h) c).2 = none →
          e = Error.errPreviousChallengeNotComputed)) := by
  have hent : entriesOK (lastIndex (n0 :: rest))
      (run H (NewTranscript h0 (n0 :: rest)) calls).1.challenges :=
    run_entriesOK H _ calls _ (NewTranscript_entriesOK h0 (n0 :: rest))
  have hpos : ∀ (c : Bytes) (ch : challenge),
      mapGet (run H (NewTranscript h0 (n0 :: rest)) calls).1.challenges c = some ch →
        ch.isComputed = false ∧ ch.position ≠ 0 := fun c ch h =>
    ⟨(hent c ch h).1, lastIndex_ne_zero n0 rest hrep c _ (hent c ch h).2.2⟩
  have hprev : (run H (NewTranscript h0 (n0 :: rest)) calls).1.previous = none :=
    run_without_first H _ (lastIndex_ne_zero n0 rest hrep) calls _
      (NewTranscript_entriesOK h0 (n0 :: rest)) rfl
  refine ⟨fun c ch h => (hpos c ch h).2, hprev, fun c => ?_⟩
  obtain ⟨e, he, hnone, hsome⟩ := ComputeChallenge_without_first H _ hpos hprev c
  have hiff := (run_get_none_iff H c calls (NewTranscript h0 (n0 :: rest))).trans
    (NewTranscript_get_none_iff h0 (n0 :: rest) c)
  exact ⟨e, he, fun hc => hnone (hiff.2 hc), fun hc => hsome (fun h => hiff.1 h hc)⟩

/-- Witness of C20: on `"c0", "c1", "c0"` nothing can be computed, whatever was called
before. -/
theorem C20_repeated_first_name_witness :
    nameC0 ∈ [nameC1, nameC0] ∧
    (run (appendHash id) (NewTranscript ([] : Bytes) [nameC0, nameC1, nameC0])
      [Call.compute nameC0, Call.compute nameC1]).1.previous = none ∧
    (run (appendHash id) (NewTranscript ([] : Bytes) [nameC0, nameC1, nameC0])
      [Call.compute nameC0, Call.compute nameC1]).2
      = [Outcome.computed (Except.error Error.errPreviousChallengeNotComputed),
         Outcome.computed (Except.error Error.errPreviousChallengeNotComputed)] :=
  ⟨by decide,
    (C20_repeated_first_name (appendHash id) ([] : Bytes) nameC0 [nameC1, nameC0] (by decide)
      [Call.compute nameC0, Call.compute nameC1]).2.1,
    rfl⟩

end fiatshamir
